import Mathlib

/-!
Verification development for the kernel-planning and vector-expression layer
of the hedge DG solver (files `hedge/backends/cuda/plan.py` and
`hedge/backends/vector_expr.py`).

Machine floats of the source are modelled as exact rationals; Python lists
as `List`; a raised exception as the `.error` case of `Except`.
-/

namespace HedgeSpec

/-! ## Definitions -/

/-- The literal `1e-10` used in `optimize_plan`'s occupancy comparison,
modelled as the exact rational it denotes. -/
def eps : ℚ := 1 / 10 ^ 10

/-- Result of the caller-supplied benchmarking function `target_func`:
Python `None`, a scalar cost, or a tuple whose first element is the scalar
cost and whose remainder is auxiliary feature data. -/
inductive BenchValue where
  | none : BenchValue
  | scalar : ℚ → BenchValue
  | tuple : ℚ → List ℚ → BenchValue
deriving DecidableEq

/-- The cost extracted by `optimize_plan` from a benchmark result: the value
itself for a scalar, `value[0]` for a tuple, nothing for `None`. -/
def benchCost : BenchValue → Option ℚ
  | .none => Option.none
  | .scalar c => some c
  | .tuple c _ => some c

/-- Modelled from the spec: `pytools.argmax2` (external collaborator, not
under `src/`) — scan of `(arg, value)` pairs keeping the current argmax,
replacing it only on strictly larger value, so ties keep the
first-encountered pair. Loop body of the scan. -/
def argmax2Go {β : Type} : β → ℚ → List (β × ℚ) → β × ℚ
  | cur, curMax, [] => (cur, curMax)
  | cur, curMax, e :: rest =>
    if curMax < e.2 then argmax2Go e.1 e.2 rest else argmax2Go cur curMax rest

/-- Modelled from the spec: `pytools.argmax2` — the argument of the maximal
value in a list of `(arg, value)` pairs, `none` on an empty list (where the
source raises `ValueError("argmax of empty iterable")`). -/
def argmax2 {β : Type} : List (β × ℚ) → Option β
  | [] => Option.none
  | e :: rest => some (argmax2Go e.1 e.2 rest).1

/-- Modelled from the spec: `pytools.argmin2`, loop body (strictly-smaller
replacement, ties keep the first-encountered pair). -/
def argmin2Go {β : Type} : β → ℚ → List (β × ℚ) → β × ℚ
  | cur, curMin, [] => (cur, curMin)
  | cur, curMin, e :: rest =>
    if e.2 < curMin then argmin2Go e.1 e.2 rest else argmin2Go cur curMin rest

/-- Modelled from the spec: `pytools.argmin2` — the argument of the minimal
value, `none` on an empty list. -/
def argmin2 {β : Type} : List (β × ℚ) → Option β
  | [] => Option.none
  | e :: rest => some (argmin2Go e.1 e.2 rest).1

/-- Python's builtin `max` over a non-empty sequence of numbers (`0` as an
unused default for the empty list, which the source never reaches because it
is guarded by the no-valid-plans check). -/
def pyMax : List ℚ → ℚ
  | [] => 0
  | [x] => x
  | x :: y :: rest => max x (pyMax (y :: rest))

/-- `plans = [p for p in plan_generator() if p.invalid_reason() is None]`:
the plans surviving the feasibility filter. -/
def survivingPlans {α : Type} (invalid_reason : α → Option String)
    (plan_generator : List α) : List α :=
  plan_generator.filter fun p => (invalid_reason p).isNone

/-- `desired_occup = occupancy_slack*max_occup` where
`max_occup = max(plan.occupancy_record().occupancy for plan in plans)`. -/
def desiredOccup {α : Type} (occupancy : α → ℚ) (occupancy_slack : ℚ)
    (plans : List α) : ℚ :=
  occupancy_slack * pyMax (plans.map occupancy)

/-- The benchmarking loop of `optimize_plan`: for each plan whose occupancy
is at least `desired_occup - 1e-10` the benchmark `target_func` is invoked;
a non-`None` cost is recorded as `((len(plan_values), p), value)`.  Returns
the recorded `plan_values` together with the list of plans on which
`target_func` was invoked, in invocation order.  `n` is the running value of
`len(plan_values)`. -/
def planScan {α : Type} (occupancy : α → ℚ) (target_func : α → BenchValue)
    (desired : ℚ) : List α → Nat → List ((Nat × α) × ℚ) × List α
  | [], _ => ([], [])
  | p :: rest, n =>
    if desired - eps ≤ occupancy p then
      match benchCost (target_func p) with
      | some v =>
        let r := planScan occupancy target_func desired rest (n + 1)
        (((n, p), v) :: r.1, p :: r.2)
      | Option.none =>
        let r := planScan occupancy target_func desired rest n
        (r.1, p :: r.2)
    else planScan occupancy target_func desired rest n

/-- The `plan_values` list recorded by `optimize_plan`'s benchmarking scan. -/
def recordedPlanValues {α : Type} (invalid_reason : α → Option String)
    (occupancy : α → ℚ) (plan_generator : List α)
    (target_func : α → BenchValue) (occupancy_slack : ℚ) :
    List ((Nat × α) × ℚ) :=
  let plans := survivingPlans invalid_reason plan_generator
  (planScan occupancy target_func (desiredOccup occupancy occupancy_slack plans)
    plans 0).1

/-- The plans on which `optimize_plan`'s benchmarking scan invokes
`target_func`, in invocation order. -/
def benchmarkedPlans {α : Type} (invalid_reason : α → Option String)
    (occupancy : α → ℚ) (plan_generator : List α)
    (target_func : α → BenchValue) (occupancy_slack : ℚ) : List α :=
  let plans := survivingPlans invalid_reason plan_generator
  (planScan occupancy target_func (desiredOccup occupancy occupancy_slack plans)
    plans 0).2

/-- `optimize_plan` from `hedge/backends/cuda/plan.py`.  A plan instance is
abstracted by the two methods the optimizer reads from it:
`invalid_reason()` and `occupancy_record().occupancy`.  The sqlite logging
and progress display are pure side channels (and logging is disabled under
the default flag set, since `"cuda_plan_log"` must be present for a log
file to be opened); they do not affect the returned value and are omitted.
A raised exception is modelled as `.error` with the exception's message. -/
def optimize_plan {α : Type} (opt_name : String)
    (invalid_reason : α → Option String) (occupancy : α → ℚ)
    (plan_generator : List α) (target_func : α → BenchValue)
    (maximize : Bool) (debug_flags : List String) (occupancy_slack : ℚ) :
    Except String (α × ℚ) :=
  let plans := survivingPlans invalid_reason plan_generator
  if plans.isEmpty then
    .error "no valid CUDA execution plans found"
  else if "cuda_no_plan" ∈ debug_flags ∨
      ("cuda_no_plan_" ++ opt_name) ∈ debug_flags then
    match argmax2 (plans.map fun p => (p, occupancy p)) with
    | some w => .ok (w, 0)
    | Option.none => .error "argmax of empty iterable"
  else
    let pv := recordedPlanValues invalid_reason occupancy plan_generator
      target_func occupancy_slack
    match (if maximize then argmax2 pv else argmin2 pv) with
    | Option.none =>
      .error (if maximize then "argmax of empty iterable"
        else "argmin of empty iterable")
    | some np =>
      match pv.get? np.1 with
      | some e => .ok (np.2, e.2)
      | Option.none => .error "list index out of range"

/-- Reference recursion for first-encountered argmax: among the pairs of
maximal value, the earliest one. -/
def firstArgmax {β : Type} : List (β × ℚ) → Option (β × ℚ)
  | [] => Option.none
  | e :: rest =>
    match firstArgmax rest with
    | Option.none => some e
    | some f => if e.2 < f.2 then some f else some e

/-- Reference recursion for first-encountered argmin. -/
def firstArgmin {β : Type} : List (β × ℚ) → Option (β × ℚ)
  | [] => Option.none
  | e :: rest =>
    match firstArgmin rest with
    | Option.none => some e
    | some f => if f.2 < e.2 then some f else some e

/-- The record returned by `_find_microblock_size`
(`MicroblockInfo(align_size=..., elements=..., aligned_floats=...)`). -/
structure MicroblockInfo where
  align_size : Nat
  elements : Nat
  aligned_floats : Nat
deriving DecidableEq

/-- Modelled from the spec: `int_ceiling` of `hedge.backends.cuda.tools`
(repository code not under `src/`) — rounds `value` up to the next multiple
of `multiple_of`. -/
def int_ceiling (value multiple_of : Nat) : Nat :=
  ((value + multiple_of - 1) / multiple_of) * multiple_of

/-- The body of the microblocking scan for one candidate `mb_align_chunks`:
`mb_aligned_floats = align_size * mb_align_chunks`,
`mb_elements = mb_aligned_floats // dofs_per_el`,
`mb_floats = dofs_per_el * mb_elements`, and the padding-overhead test
`(mb_aligned_floats - mb_floats)/mb_aligned_floats <= 0.05` (true division,
modelled exactly over the rationals). -/
def mbOverheadOk (align_size dofs_per_el chunks : Nat) : Bool :=
  let a := align_size * chunks
  let e := a / dofs_per_el
  let f := dofs_per_el * e
  decide ((((a : ℚ) - (f : ℚ)) / (a : ℚ)) ≤ 5 / 100)

/-- The `MicroblockInfo` built for an accepted `mb_align_chunks`. -/
def mbInfoAt (align_size dofs_per_el chunks : Nat) : MicroblockInfo :=
  { align_size := align_size,
    elements := (align_size * chunks) / dofs_per_el,
    aligned_floats := align_size * chunks }

/-- The `for mb_align_chunks in range(1, 256)` loop: try the candidates in
increasing order, return the first accepted one; `none` models the
`assert False, "a valid microblock size was not found"` fall-through. -/
def findMbLoop (align_size dofs_per_el : Nat) : Nat → Nat → Option MicroblockInfo
  | _, 0 => Option.none
  | chunks, fuel + 1 =>
    if mbOverheadOk align_size dofs_per_el chunks then
      some (mbInfoAt align_size dofs_per_el chunks)
    else findMbLoop align_size dofs_per_el (chunks + 1) fuel

/-- `PlanGivenData._find_microblock_size`, abstracted over the two numbers
it reads from its surroundings: `align_size = devdata.align_words(float_size)`
and `dofs_per_el = ldis.node_count()`. -/
def find_microblock_size (align_size dofs_per_el : Nat)
    (allow_microblocking : Bool) : Option MicroblockInfo :=
  if allow_microblocking then
    findMbLoop align_size dofs_per_el 1 255
  else
    some { align_size := align_size, elements := 1,
           aligned_floats := int_ceiling dofs_per_el align_size }

/-- Modelled from the spec: the symbolic expression trees handled by the
builder — variables, numeric constants, subscripts, arithmetic, function
calls (one argument suffices to model descending into call arguments) and
`CommonSubexpression` markers. -/
inductive Expr where
  | var : String → Expr
  | const : Int → Expr
  | subscript : Expr → Expr → Expr
  | add : Expr → Expr → Expr
  | sub : Expr → Expr → Expr
  | mul : Expr → Expr → Expr
  | call : Expr → Expr → Expr
  | cse : Expr → Expr
deriving DecidableEq

/-- Insert an expression at the end of a deduplicated list unless already
present (insertion-ordered set insertion). -/
def dinsert (xs : List Expr) (y : Expr) : List Expr :=
  if y ∈ xs then xs else xs ++ [y]

/-- Insertion-ordered set union, the model of Python `set.__or__` combined
by `reduce(or_, ...)`: the spec fixes "deterministic iteration order
derived from insertion order across all targets combined via set union". -/
def dunion (xs ys : List Expr) : List Expr := ys.foldl dinsert xs

/-- Modelled from the spec: `hedge.optemplate.DependencyMapper` with
`include_subscripts=True, include_lookups=True,
include_calls="descend_args"` (repository code not under `src/`) — the
deduplicated algebraic leaf / indexable sub-expressions an expression
depends on, descending into call arguments but treating a subscript as a
single dependency. -/
def depList : Expr → List Expr
  | .var n => [.var n]
  | .const _ => []
  | .subscript a i => [.subscript a i]
  | .add a b => dunion (depList a) (depList b)
  | .sub a b => dunion (depList a) (depList b)
  | .mul a b => dunion (depList a) (depList b)
  | .call _ x => depList x
  | .cse c => depList c

/-- `deps = reduce(or_, (dep_mapper(ve) for ve in vec_exprs))`, with the
union's insertion order made explicit. -/
def cveDeps (vec_exprs : List Expr) : List Expr :=
  vec_exprs.foldl (fun acc ve => dunion acc (depList ve)) []

/-- `self.vector_exprs = [dep for dep in deps if is_vector_func(dep)]`. -/
def cveVector (vec_exprs : List Expr) (is_vector_func : Expr → Bool) :
    List Expr :=
  (cveDeps vec_exprs).filter is_vector_func

/-- `self.scalar_exprs = [dep for dep in deps if not is_vector_func(dep)]`. -/
def cveScalar (vec_exprs : List Expr) (is_vector_func : Expr → Bool) :
    List Expr :=
  (cveDeps vec_exprs).filter fun d => !(is_vector_func d)

/-- `self.vector_names = ["v%d" % i for i in range(len(self.vector_exprs))]`. -/
def vectorNames (n : Nat) : List String :=
  (List.range n).map fun i => "v" ++ toString i

/-- `self.scalar_names = ["s%d" % i for i in range(len(self.scalar_exprs))]`. -/
def scalarNames (n : Nat) : List String :=
  (List.range n).map fun i => "s" ++ toString i

/-- The substitution dictionary `subst_map`: each vector dependency maps to
`var(vecname)[var("i")]`, each scalar dependency to `var(scaname)`. -/
def cveSubstMap (vec_exprs : List Expr) (is_vector_func : Expr → Bool) :
    List (Expr × Expr) :=
  (cveVector vec_exprs is_vector_func).zip
    ((vectorNames (cveVector vec_exprs is_vector_func).length).map
      fun n => Expr.subscript (.var n) (.var "i"))
  ++ (cveScalar vec_exprs is_vector_func).zip
    ((scalarNames (cveScalar vec_exprs is_vector_func).length).map
      fun n => Expr.var n)

/-- `subst_func`: dictionary lookup returning `None` on a missing key. -/
def substLookup (m : List (Expr × Expr)) (e : Expr) : Option Expr :=
  (m.find? fun p => p.1 == e).map Prod.snd

/-- Modelled from the spec: `DefaultingSubstitutionMapper` — the pymbolic
`SubstitutionMapper` consults `subst_func` at the dependency node kinds
(variables and subscripts) and rebuilds every other node from recursively
mapped children; a node not covered by the substitution map passes through
unchanged. -/
def substApply (s : Expr → Option Expr) : Expr → Expr
  | .var n =>
    match s (.var n) with
    | some r => r
    | Option.none => .var n
  | .subscript a i =>
    match s (.subscript a i) with
    | some r => r
    | Option.none => .subscript (substApply s a) (substApply s i)
  | .const c => .const c
  | .add a b => .add (substApply s a) (substApply s b)
  | .sub a b => .sub (substApply s a) (substApply s b)
  | .mul a b => .mul (substApply s a) (substApply s b)
  | .call f x => .call (substApply s f) (substApply s x)
  | .cse c => .cse (substApply s c)

/-- The derived state of `CompiledVectorExpressionBase.__init__`. -/
structure CompiledVE where
  vec_exprs : List Expr
  vector_exprs : List Expr
  scalar_exprs : List Expr
  vector_names : List String
  scalar_names : List String
  exprs : List Expr
deriving DecidableEq

/-- `CompiledVectorExpressionBase.__init__`: dependency extraction,
partition, naming and rewrite (the result-dtype getter and the constant
dtypes feed only the dtype computation of `get_kernel` and are not part of
the rewritten structure). -/
def mkCompiledVE (vec_exprs : List Expr) (is_vector_func : Expr → Bool) :
    CompiledVE :=
  { vec_exprs := vec_exprs,
    vector_exprs := cveVector vec_exprs is_vector_func,
    scalar_exprs := cveScalar vec_exprs is_vector_func,
    vector_names := vectorNames (cveVector vec_exprs is_vector_func).length,
    scalar_names := scalarNames (cveScalar vec_exprs is_vector_func).length,
    exprs := vec_exprs.map
      (substApply (substLookup (cveSubstMap vec_exprs is_vector_func))) }

/-- Is this expression one of the dependency node kinds (an algebraic leaf
or indexable sub-expression)? -/
def isLeafDep : Expr → Bool
  | .var _ => true
  | .subscript _ _ => true
  | _ => false

/-- No variable or subscript node anywhere in the expression is covered by
the substitution function — the hypothesis under which the
default-passthrough substitutor must leave the expression unchanged. -/
def noMappedNode (s : Expr → Option Expr) : Expr → Prop
  | .var n => s (.var n) = Option.none
  | .subscript a i =>
    s (.subscript a i) = Option.none ∧ noMappedNode s a ∧ noMappedNode s i
  | .const _ => True
  | .add a b => noMappedNode s a ∧ noMappedNode s b
  | .sub a b => noMappedNode s a ∧ noMappedNode s b
  | .mul a b => noMappedNode s a ∧ noMappedNode s b
  | .call f x => noMappedNode s f ∧ noMappedNode s x
  | .cse c => noMappedNode s c

/-- The generated name of the `i`-th common-subexpression binding
(`code_mapper.cse_prefix` is `"_cse"`). -/
def cseName (i : Nat) : String := "_cse" ++ toString i

/-- The mutable state of the shared `CCodeMapper`: the common-subexpression
bindings collected so far, as `(child expression, stringified child)` in
first-encounter order; the binding's name is its position. -/
structure CseState where
  cses : List (Expr × String)
deriving DecidableEq

/-- Modelled from the spec: pymbolic's `CCodeMapper` (external collaborator)
restricted to what `get_kernel` relies on — stringify an expression,
threading the shared common-subexpression state: on meeting a
`CommonSubexpression` whose child is already bound, emit the existing
binding's name; otherwise stringify the child, append a new binding and
emit its name. -/
def ccode : Expr → CseState → String × CseState
  | .var n, st => (n, st)
  | .const c, st => (toString c, st)
  | .subscript a i, st =>
    let r1 := ccode a st
    let r2 := ccode i r1.2
    (r1.1 ++ "[" ++ r2.1 ++ "]", r2.2)
  | .add a b, st =>
    let r1 := ccode a st
    let r2 := ccode b r1.2
    ("(" ++ r1.1 ++ " + " ++ r2.1 ++ ")", r2.2)
  | .sub a b, st =>
    let r1 := ccode a st
    let r2 := ccode b r1.2
    ("(" ++ r1.1 ++ " - " ++ r2.1 ++ ")", r2.2)
  | .mul a b, st =>
    let r1 := ccode a st
    let r2 := ccode b r1.2
    (r1.1 ++ "*" ++ r2.1, r2.2)
  | .call f x, st =>
    let r1 := ccode f st
    let r2 := ccode x r1.2
    (r1.1 ++ "(" ++ r2.1 ++ ")", r2.2)
  | .cse c, st =>
    match st.cses.findIdx? (fun p => p.1 == c) with
    | some i => (cseName i, st)
    | Option.none =>
      let r := ccode c st
      (cseName r.2.cses.length, ⟨r.2.cses ++ [(c, r.1)]⟩)

/-- `expr_codes = [code_mapper(e, PREC_NONE) for e in self.exprs]` with one
shared `code_mapper`: stringify all target expressions left to right
through one common-subexpression state. -/
def runCcodeAll (exprs : List Expr) : List String × CseState :=
  exprs.foldl
    (fun acc e =>
      let r := ccode e acc.2
      (acc.1 ++ [r.1], r.2))
    ([], ⟨[]⟩)

/-- The fused kernel body assembled by `get_kernel`: one assignment line per
collected common-subexpression binding (each emitted exactly once, in
first-encounter order), then one `_result%d[i] = ...;` line per target
expression. -/
def getKernelLines (cve : CompiledVE) : List String :=
  let r := runCcodeAll cve.exprs
  (r.2.cses.enum.map fun p => cseName p.1 ++ " = " ++ p.2.2 ++ ";")
  ++ (r.1.enum.map fun p => "_result" ++ toString p.1 ++ "[i] = " ++ p.2 ++ ";")

/-- Does `cse c` occur anywhere inside the expression? -/
def occursCse (c : Expr) : Expr → Bool
  | .var _ => false
  | .const _ => false
  | .subscript a i => occursCse c a || occursCse c i
  | .add a b => occursCse c a || occursCse c b
  | .sub a b => occursCse c a || occursCse c b
  | .mul a b => occursCse c a || occursCse c b
  | .call f x => occursCse c f || occursCse c x
  | .cse c' => (c' == c) || occursCse c c'

/-- Node count, used to rule out an expression occurring as a
common-subexpression child of itself. -/
def esize : Expr → Nat
  | .var _ => 1
  | .const _ => 1
  | .subscript a i => esize a + esize i + 1
  | .add a b => esize a + esize b + 1
  | .sub a b => esize a + esize b + 1
  | .mul a b => esize a + esize b + 1
  | .call f x => esize f + esize x + 1
  | .cse c => esize c + 1

/-- A closed common-subexpression state: every binding's child has all of
its own nested common-subexpression children bound too.  Every state
reachable from the empty one is closed. -/
def ClosedState (st : CseState) : Prop :=
  ∀ pe ∈ st.cses, ∀ c, occursCse c pe.1 = true → c ∈ st.cses.map Prod.fst

/-- A concrete plan for fixtures: the identity plus the two fields the
optimizer reads (`invalid_reason()` and `occupancy_record().occupancy`). -/
structure CPlan where
  pid : Nat
  invalid : Option String
  occ : ℚ
deriving DecidableEq

/-- `invalid_reason()` of a fixture plan. -/
def cplanInvalid : CPlan → Option String := fun p => p.invalid

/-- `occupancy_record().occupancy` of a fixture plan. -/
def cplanOcc : CPlan → ℚ := fun p => p.occ

/-- C1 counterexample fixture: two valid plans; the high-occupancy one is
benchmarked but the benchmark declines, the low-occupancy one has a
benchmark cost but is pruned by the occupancy-slack cut. -/
def cexPlans : List CPlan := [⟨0, Option.none, 1⟩, ⟨1, Option.none, 1 / 10⟩]

/-- Benchmark of the C1 counterexample: declines on plan 0, costs 5 on
plan 1. -/
def cexTarget : CPlan → BenchValue := fun p =>
  if p.pid = 0 then .none else .scalar 5

/-- Fixture for the C1 (amended) witness: one valid plan with occupancy 1
and benchmark cost 5. -/
def w1Plans : List CPlan := [⟨0, Option.none, 1⟩]

/-- Benchmark of the C1 witness fixture. -/
def w1Target : CPlan → BenchValue := fun _ => .scalar 5

/-- The spec's pruning fixture: three valid plans with occupancies
`{1, 9/10, 1/10}`. -/
def w3Plans : List CPlan :=
  [⟨0, Option.none, 1⟩, ⟨1, Option.none, 9 / 10⟩, ⟨2, Option.none, 1 / 10⟩]

/-- Benchmark of the C3 witness fixture. -/
def w3Target : CPlan → BenchValue := fun p => .scalar ((p.pid : ℚ) + 1)

/-- Fixture for the C4 witness: a single infeasible plan. -/
def w4Plans : List CPlan := [⟨0, some "shared memory exceeded", 1⟩]

/-- The spec's selection fixture: three valid equal-occupancy plans with
benchmark costs `{3, 7, 5}`. -/
def w5Plans : List CPlan :=
  [⟨0, Option.none, 1⟩, ⟨1, Option.none, 1⟩, ⟨2, Option.none, 1⟩]

/-- Benchmark of the C5 witness fixture: costs 3, 7, 5. -/
def w5Target : CPlan → BenchValue := fun p =>
  if p.pid = 0 then .scalar 3 else if p.pid = 1 then .scalar 7 else .scalar 5

/-- Fixture for the C10 witness: one valid plan, benchmark always
declines. -/
def w10Plans : List CPlan := [⟨0, Option.none, 1⟩]

/-- The spec's fusion fixture: targets `cse(a*b) + c` and `cse(a*b) - c`. -/
def fixVes : List Expr :=
  [.add (.cse (.mul (.var "a") (.var "b"))) (.var "c"),
   .sub (.cse (.mul (.var "a") (.var "b"))) (.var "c")]

/-- Classifier of the fixture: everything except `c` is a vector. -/
def fixIsVec : Expr → Bool := fun e => e != Expr.var "c"

/-! ## Theorems -/

/-- The entry at position `k` of the recorded `plan_values` carries the
stored running index `n + k`: indices are consecutive from `n`. -/
theorem planScan_fst_idx {α : Type} (occupancy : α → ℚ)
    (target_func : α → BenchValue) (desired : ℚ) (l : List α) :
    ∀ (n k : Nat) (e : (Nat × α) × ℚ),
      (planScan occupancy target_func desired l n).1.get? k = some e →
      e.1.1 = n + k := by
  induction l with
  | nil => intro n k e h; simp [planScan] at h
  | cons p rest ih =>
    intro n k e h
    by_cases hc : desired - eps ≤ occupancy p
    · rcases hv : benchCost (target_func p) with _ | v
      · have h' : (planScan occupancy target_func desired rest n).1.get? k
            = some e := by simpa [planScan, hc, hv] using h
        exact ih n k e h'
      · cases k with
        | zero =>
          have he : ((n, p), v) = e := by simpa [planScan, hc, hv] using h
          have : e.1.1 = n := by rw [← he]
          omega
        | succ j =>
          have h' : (planScan occupancy target_func desired rest (n + 1)).1.get? j
              = some e := by simpa [planScan, hc, hv] using h
          have := ih (n + 1) j e h'
          omega
    · have h' : (planScan occupancy target_func desired rest n).1.get? k
          = some e := by simpa [planScan, hc] using h
      exact ih n k e h'

/-- Every recorded `(index, plan), cost` entry comes from a plan of the
scanned list that passed the occupancy cut and whose benchmark produced
exactly that cost. -/
theorem planScan_fst_mem {α : Type} (occupancy : α → ℚ)
    (target_func : α → BenchValue) (desired : ℚ) (l : List α) :
    ∀ (n : Nat) (e : (Nat × α) × ℚ),
      e ∈ (planScan occupancy target_func desired l n).1 →
      e.1.2 ∈ l ∧ benchCost (target_func e.1.2) = some e.2 ∧
        desired - eps ≤ occupancy e.1.2 := by
  induction l with
  | nil => intro n e h; simp [planScan] at h
  | cons p rest ih =>
    intro n e h
    by_cases hc : desired - eps ≤ occupancy p
    · rcases hv : benchCost (target_func p) with _ | v
      · have h' : e ∈ (planScan occupancy target_func desired rest n).1 := by
          simpa [planScan, hc, hv] using h
        rcases ih n e h' with ⟨h1, h2, h3⟩
        exact ⟨List.mem_cons_of_mem p h1, h2, h3⟩
      · have h' : e = ((n, p), v) ∨
            e ∈ (planScan occupancy target_func desired rest (n + 1)).1 := by
          simpa [planScan, hc, hv] using h
        rcases h' with rfl | h'
        · exact ⟨List.mem_cons_self p rest, hv, hc⟩
        · rcases ih (n + 1) e h' with ⟨h1, h2, h3⟩
          exact ⟨List.mem_cons_of_mem p h1, h2, h3⟩
    · have h' : e ∈ (planScan occupancy target_func desired rest n).1 := by
        simpa [planScan, hc] using h
      rcases ih n e h' with ⟨h1, h2, h3⟩
      exact ⟨List.mem_cons_of_mem p h1, h2, h3⟩

/-- If some plan of the scanned list passes the occupancy cut and its
benchmark yields a cost, the recorded `plan_values` list is non-empty. -/
theorem planScan_fst_ne_nil {α : Type} (occupancy : α → ℚ)
    (target_func : α → BenchValue) (desired : ℚ) (l : List α) :
    ∀ (n : Nat) (p : α), p ∈ l → desired - eps ≤ occupancy p →
      benchCost (target_func p) ≠ Option.none →
      (planScan occupancy target_func desired l n).1 ≠ [] := by
  induction l with
  | nil => intro n p h; simp at h
  | cons q rest ih =>
    intro n p hp hocc hbench
    by_cases hc : desired - eps ≤ occupancy q
    · rcases hv : benchCost (target_func q) with _ | v
      · rcases List.mem_cons.mp hp with rfl | hp'
        · exact absurd hv hbench
        · have := ih n p hp' hocc hbench
          simpa [planScan, hc, hv] using this
      · simp [planScan, hc, hv]
    · rcases List.mem_cons.mp hp with rfl | hp'
      · exact absurd hocc hc
      · have := ih n p hp' hocc hbench
        simpa [planScan, hc] using this

/-- If the benchmark declines (`None`) on every plan passing the occupancy
cut, nothing is recorded. -/
theorem planScan_fst_nil {α : Type} (occupancy : α → ℚ)
    (target_func : α → BenchValue) (desired : ℚ) (l : List α) :
    ∀ (n : Nat),
      (∀ p ∈ l, desired - eps ≤ occupancy p →
        benchCost (target_func p) = Option.none) →
      (planScan occupancy target_func desired l n).1 = [] := by
  induction l with
  | nil => intro n _; simp [planScan]
  | cons q rest ih =>
    intro n hnone
    by_cases hc : desired - eps ≤ occupancy q
    · have hv : benchCost (target_func q) = Option.none :=
        hnone q (List.mem_cons_self q rest) hc
      have := ih n fun p hp => hnone p (List.mem_cons_of_mem q hp)
      simpa [planScan, hc, hv] using this
    · have := ih n fun p hp => hnone p (List.mem_cons_of_mem q hp)
      simpa [planScan, hc] using this

/-- The benchmark is invoked exactly on the scanned plans passing the
occupancy cut. -/
theorem planScan_snd_mem {α : Type} (occupancy : α → ℚ)
    (target_func : α → BenchValue) (desired : ℚ) (l : List α) :
    ∀ (n : Nat) (p : α),
      p ∈ (planScan occupancy target_func desired l n).2 ↔
        p ∈ l ∧ desired - eps ≤ occupancy p := by
  induction l with
  | nil => intro n p; simp [planScan]
  | cons q rest ih =>
    intro n p
    by_cases hc : desired - eps ≤ occupancy q
    · rcases hv : benchCost (target_func q) with _ | v
      · constructor
        · intro h
          have h' : p = q ∨ p ∈ (planScan occupancy target_func desired rest n).2 := by
            simpa [planScan, hc, hv] using h
          rcases h' with rfl | h'
          · exact ⟨List.mem_cons_self p rest, hc⟩
          · rcases (ih n p).mp h' with ⟨h1, h2⟩
            exact ⟨List.mem_cons_of_mem q h1, h2⟩
        · intro ⟨hmem, hocc⟩
          rcases List.mem_cons.mp hmem with rfl | hmem'
          · simp [planScan, hc, hv]
          · have := (ih n p).mpr ⟨hmem', hocc⟩
            simp [planScan, hc, hv, this]
      · constructor
        · intro h
          have h' : p = q ∨
              p ∈ (planScan occupancy target_func desired rest (n + 1)).2 := by
            simpa [planScan, hc, hv] using h
          rcases h' with rfl | h'
          · exact ⟨List.mem_cons_self p rest, hc⟩
          · rcases (ih (n + 1) p).mp h' with ⟨h1, h2⟩
            exact ⟨List.mem_cons_of_mem q h1, h2⟩
        · intro ⟨hmem, hocc⟩
          rcases List.mem_cons.mp hmem with rfl | hmem'
          · simp [planScan, hc, hv]
          · have := (ih (n + 1) p).mpr ⟨hmem', hocc⟩
            simp [planScan, hc, hv, this]
    · constructor
      · intro h
        have h' : p ∈ (planScan occupancy target_func desired rest n).2 := by
          simpa [planScan, hc] using h
        rcases (ih n p).mp h' with ⟨h1, h2⟩
        exact ⟨List.mem_cons_of_mem q h1, h2⟩
      · intro ⟨hmem, hocc⟩
        rcases List.mem_cons.mp hmem with rfl | hmem'
        · exact absurd hocc hc
        · have := (ih n p).mpr ⟨hmem', hocc⟩
          simpa [planScan, hc] using this

theorem argmax2Go_eq {β : Type} (l : List (β × ℚ)) : ∀ (b : β) (m : ℚ),
    argmax2Go b m l =
      (match firstArgmax l with
        | Option.none => (b, m)
        | some f => if m < f.2 then f else (b, m)) := by
  induction l with
  | nil => intro b m; simp [argmax2Go, firstArgmax]
  | cons e rest ih =>
    intro b m
    simp only [argmax2Go, firstArgmax]
    rcases hfa : firstArgmax rest with _ | f
    · by_cases h : m < e.2 <;> simp [h, ih, hfa, argmax2Go]
    · by_cases h : m < e.2
      · simp only [if_pos h, ih, hfa]
        by_cases h2 : e.2 < f.2
        · have hm : m < f.2 := lt_trans h h2
          simp [h2, hm]
        · simp [h2, h]
      · simp only [if_neg h, ih, hfa]
        by_cases h2 : e.2 < f.2
        · simp [h2]
        · have : ¬ m < f.2 := fun hc => h (lt_of_lt_of_le hc (le_of_not_lt h2))
          simp [h2, this, h]

theorem argmin2Go_eq {β : Type} (l : List (β × ℚ)) : ∀ (b : β) (m : ℚ),
    argmin2Go b m l =
      (match firstArgmin l with
        | Option.none => (b, m)
        | some f => if f.2 < m then f else (b, m)) := by
  induction l with
  | nil => intro b m; simp [argmin2Go, firstArgmin]
  | cons e rest ih =>
    intro b m
    simp only [argmin2Go, firstArgmin]
    rcases hfa : firstArgmin rest with _ | f
    · by_cases h : e.2 < m <;> simp [h, ih, hfa, argmin2Go]
    · by_cases h : e.2 < m
      · simp only [if_pos h, ih, hfa]
        by_cases h2 : f.2 < e.2
        · have hm : f.2 < m := lt_trans h2 h
          simp [h2, hm]
        · simp [h2, h]
      · simp only [if_neg h, ih, hfa]
        by_cases h2 : f.2 < e.2
        · simp [h2]
        · have : ¬ f.2 < m := fun hc => h (lt_of_le_of_lt (le_of_not_lt h2) hc)
          simp [h2, this, h]

theorem argmax2_eq_firstArgmax {β : Type} (l : List (β × ℚ)) :
    argmax2 l = (firstArgmax l).map Prod.fst := by
  cases l with
  | nil => simp [argmax2, firstArgmax]
  | cons e rest =>
    simp only [argmax2, argmax2Go_eq, firstArgmax]
    rcases hfa : firstArgmax rest with _ | f
    · simp
    · by_cases h2 : e.2 < f.2 <;> simp [h2]

theorem argmin2_eq_firstArgmin {β : Type} (l : List (β × ℚ)) :
    argmin2 l = (firstArgmin l).map Prod.fst := by
  cases l with
  | nil => simp [argmin2, firstArgmin]
  | cons e rest =>
    simp only [argmin2, argmin2Go_eq, firstArgmin]
    rcases hfa : firstArgmin rest with _ | f
    · simp
    · by_cases h2 : f.2 < e.2 <;> simp [h2]

theorem firstArgmax_isSome {β : Type} (l : List (β × ℚ)) (h : l ≠ []) :
    ∃ e, firstArgmax l = some e := by
  cases l with
  | nil => exact absurd rfl h
  | cons e rest =>
    simp only [firstArgmax]
    rcases firstArgmax rest with _ | f
    · exact ⟨e, rfl⟩
    · by_cases h2 : e.2 < f.2 <;> simp [h2]

theorem firstArgmin_isSome {β : Type} (l : List (β × ℚ)) (h : l ≠ []) :
    ∃ e, firstArgmin l = some e := by
  cases l with
  | nil => exact absurd rfl h
  | cons e rest =>
    simp only [firstArgmin]
    rcases firstArgmin rest with _ | f
    · exact ⟨e, rfl⟩
    · by_cases h2 : f.2 < e.2 <;> simp [h2]

theorem firstArgmax_eq_none {β : Type} (l : List (β × ℚ))
    (h : firstArgmax l = Option.none) : l = [] := by
  cases l with
  | nil => rfl
  | cons e rest =>
    exfalso
    rcases firstArgmax_isSome (e :: rest) (by simp) with ⟨f, hf⟩
    rw [hf] at h; exact Option.noConfusion h

theorem firstArgmin_eq_none {β : Type} (l : List (β × ℚ))
    (h : firstArgmin l = Option.none) : l = [] := by
  cases l with
  | nil => rfl
  | cons e rest =>
    exfalso
    rcases firstArgmin_isSome (e :: rest) (by simp) with ⟨f, hf⟩
    rw [hf] at h; exact Option.noConfusion h

/-- The pair chosen by `firstArgmax` is in the list, its value bounds every
value in the list, and every pair strictly before it has strictly smaller
value (first-encountered tie-break). -/
theorem firstArgmax_spec {β : Type} (l : List (β × ℚ)) (e : β × ℚ)
    (h : firstArgmax l = some e) :
    ∃ i, l.get? i = some e ∧ (∀ c ∈ l, c.2 ≤ e.2) ∧
      ∀ j c, j < i → l.get? j = some c → c.2 < e.2 := by
  induction l generalizing e with
  | nil => simp [firstArgmax] at h
  | cons x rest ih =>
    simp only [firstArgmax] at h
    rcases hfa : firstArgmax rest with _ | f
    · rw [hfa] at h
      have h' : some x = some e := h
      have hrest : rest = [] := firstArgmax_eq_none rest hfa
      subst hrest
      have hex : x = e := by injection h'
      subst hex
      refine ⟨0, rfl, ?_, ?_⟩
      · intro c hc
        rcases List.mem_singleton.mp hc with rfl
        exact le_refl _
      · intro j c hj; omega
    · rw [hfa] at h
      have h' : (if x.2 < f.2 then some f else some x) = some e := h
      rcases ih f hfa with ⟨i, hget, hmax, hfirst⟩
      by_cases h2 : x.2 < f.2
      · rw [if_pos h2] at h'
        have hfe : f = e := by injection h'
        subst hfe
        refine ⟨i + 1, by simpa using hget, ?_, ?_⟩
        · intro c hc
          rcases List.mem_cons.mp hc with rfl | hc'
          · exact le_of_lt h2
          · exact hmax c hc'
        · intro j c hj hgetj
          cases j with
          | zero =>
            have : c = x := by simpa using hgetj.symm
            subst this; exact h2
          | succ k =>
            have hk : k < i := by omega
            exact hfirst k c hk (by simpa using hgetj)
      · rw [if_neg h2] at h'
        have hex : x = e := by injection h'
        subst hex
        refine ⟨0, rfl, ?_, ?_⟩
        · intro c hc
          rcases List.mem_cons.mp hc with rfl | hc'
          · exact le_refl _
          · exact le_trans (hmax c hc') (le_of_not_lt h2)
        · intro j c hj; omega

/-- Mirror of `firstArgmax_spec` for the minimum. -/
theorem firstArgmin_spec {β : Type} (l : List (β × ℚ)) (e : β × ℚ)
    (h : firstArgmin l = some e) :
    ∃ i, l.get? i = some e ∧ (∀ c ∈ l, e.2 ≤ c.2) ∧
      ∀ j c, j < i → l.get? j = some c → e.2 < c.2 := by
  induction l generalizing e with
  | nil => simp [firstArgmin] at h
  | cons x rest ih =>
    simp only [firstArgmin] at h
    rcases hfa : firstArgmin rest with _ | f
    · rw [hfa] at h
      have h' : some x = some e := h
      have hrest : rest = [] := firstArgmin_eq_none rest hfa
      subst hrest
      have hex : x = e := by injection h'
      subst hex
      refine ⟨0, rfl, ?_, ?_⟩
      · intro c hc
        rcases List.mem_singleton.mp hc with rfl
        exact le_refl _
      · intro j c hj; omega
    · rw [hfa] at h
      have h' : (if f.2 < x.2 then some f else some x) = some e := h
      rcases ih f hfa with ⟨i, hget, hmax, hfirst⟩
      by_cases h2 : f.2 < x.2
      · rw [if_pos h2] at h'
        have hfe : f = e := by injection h'
        subst hfe
        refine ⟨i + 1, by simpa using hget, ?_, ?_⟩
        · intro c hc
          rcases List.mem_cons.mp hc with rfl | hc'
          · exact le_of_lt h2
          · exact hmax c hc'
        · intro j c hj hgetj
          cases j with
          | zero =>
            have : c = x := by simpa using hgetj.symm
            subst this; exact h2
          | succ k =>
            have hk : k < i := by omega
            exact hfirst k c hk (by simpa using hgetj)
      · rw [if_neg h2] at h'
        have hex : x = e := by injection h'
        subst hex
        refine ⟨0, rfl, ?_, ?_⟩
        · intro c hc
          rcases List.mem_cons.mp hc with rfl | hc'
          · exact le_refl _
          · exact le_trans (le_of_not_lt h2) (hmax c hc')
        · intro j c hj; omega

theorem isEmpty_false_of_ne_nil {γ : Type} (l : List γ) (h : l ≠ []) :
    l.isEmpty = false := by
  cases l with
  | nil => exact absurd rfl h
  | cons a t => rfl

/-- With the default (empty) debug-flag set and at least one surviving plan,
`optimize_plan` reaches the benchmarking scan and performs the extremal
selection over the recorded `plan_values`. -/
theorem optimize_plan_eq_select {α : Type} (opt_name : String)
    (invalid_reason : α → Option String) (occupancy : α → ℚ)
    (plan_generator : List α) (target_func : α → BenchValue)
    (maximize : Bool) (occupancy_slack : ℚ)
    (hsurv : survivingPlans invalid_reason plan_generator ≠ []) :
    optimize_plan opt_name invalid_reason occupancy plan_generator target_func
        maximize [] occupancy_slack =
      (match (if maximize then
          argmax2 (recordedPlanValues invalid_reason occupancy plan_generator
            target_func occupancy_slack)
        else
          argmin2 (recordedPlanValues invalid_reason occupancy plan_generator
            target_func occupancy_slack)) with
      | Option.none =>
        .error (if maximize then "argmax of empty iterable"
          else "argmin of empty iterable")
      | some np =>
        match (recordedPlanValues invalid_reason occupancy plan_generator
            target_func occupancy_slack).get? np.1 with
        | some e => .ok (np.2, e.2)
        | Option.none => .error "list index out of range") := by
  simp only [optimize_plan, isEmpty_false_of_ne_nil _ hsurv, Bool.false_eq_true,
    if_false, List.not_mem_nil, or_self, recordedPlanValues]

/-- C4: if every generated plan has a non-`None` `invalid_reason()` (in
particular if the generator produced no plans at all), `optimize_plan`
raises the fatal `RuntimeError` and never returns a result — there is no
fallback plan and no silent empty return.  This holds for every flag set,
slack and direction. -/
theorem optimize_plan_no_valid_plans_fatal {α : Type} (opt_name : String)
    (invalid_reason : α → Option String) (occupancy : α → ℚ)
    (plan_generator : List α) (target_func : α → BenchValue)
    (maximize : Bool) (debug_flags : List String) (occupancy_slack : ℚ)
    (h : ∀ p ∈ plan_generator, (invalid_reason p).isSome) :
    optimize_plan opt_name invalid_reason occupancy plan_generator target_func
        maximize debug_flags occupancy_slack =
      .error "no valid CUDA execution plans found" := by
  have hnil : survivingPlans invalid_reason plan_generator = [] := by
    rw [survivingPlans, List.filter_eq_nil_iff]
    intro p hp
    have := h p hp
    simp only [Option.isNone_iff_eq_none]
    intro hcontra
    rw [hcontra] at this
    exact Bool.noConfusion this
  simp [optimize_plan, hnil]

/-- C10: if at least one plan survives the `invalid_reason` filter but the
benchmark declines (returns `None`) on every plan it is invoked on, no
`(plan, cost)` pair is recorded, and the final extremal selection — applied
to the empty collection — raises, so `optimize_plan` does not return a
plan even though each individual `None` was silently accepted. -/
theorem optimize_plan_all_benchmarks_declined_fatal {α : Type}
    (opt_name : String) (invalid_reason : α → Option String)
    (occupancy : α → ℚ) (plan_generator : List α)
    (target_func : α → BenchValue) (maximize : Bool) (occupancy_slack : ℚ)
    (hsurv : survivingPlans invalid_reason plan_generator ≠ [])
    (hnone : ∀ p ∈ survivingPlans invalid_reason plan_generator,
      desiredOccup occupancy occupancy_slack
          (survivingPlans invalid_reason plan_generator) - eps ≤ occupancy p →
      benchCost (target_func p) = Option.none) :
    optimize_plan opt_name invalid_reason occupancy plan_generator target_func
        maximize [] occupancy_slack =
      .error (if maximize then "argmax of empty iterable"
        else "argmin of empty iterable") := by
  have hpv : recordedPlanValues invalid_reason occupancy plan_generator
      target_func occupancy_slack = [] :=
    planScan_fst_nil _ _ _ _ _ hnone
  rw [optimize_plan_eq_select _ _ _ _ _ _ _ hsurv, hpv]
  cases maximize <;> simp [argmax2, argmin2]

/-- C3: during `optimize_plan`'s benchmarking scan (outside the debug
no-plan short-circuit), the benchmark `target_func` is never invoked on a
plan whose occupancy is strictly below
`occupancy_slack * max_occupancy - 1e-10` (with `max_occupancy` the maximum
over surviving plans), and it is invoked on every surviving plan whose
occupancy is at or above that threshold. -/
theorem optimize_plan_occupancy_pruning {α : Type}
    (invalid_reason : α → Option String) (occupancy : α → ℚ)
    (plan_generator : List α) (target_func : α → BenchValue)
    (occupancy_slack : ℚ)
    (hsurv : survivingPlans invalid_reason plan_generator ≠ []) :
    (∀ p : α, occupancy p < desiredOccup occupancy occupancy_slack
        (survivingPlans invalid_reason plan_generator) - eps →
      p ∉ benchmarkedPlans invalid_reason occupancy plan_generator
        target_func occupancy_slack) ∧
    (∀ p ∈ survivingPlans invalid_reason plan_generator,
      desiredOccup occupancy occupancy_slack
          (survivingPlans invalid_reason plan_generator) - eps ≤ occupancy p →
      p ∈ benchmarkedPlans invalid_reason occupancy plan_generator
        target_func occupancy_slack) := by
  constructor
  · intro p hocc hmem
    have := (planScan_snd_mem occupancy target_func _ _ 0 p).mp hmem
    exact absurd this.2 (not_le_of_lt hocc)
  · intro p hmem hocc
    exact (planScan_snd_mem occupancy target_func _ _ 0 p).mpr ⟨hmem, hocc⟩

/-- Shared helper: once the benchmarking scan has recorded a non-empty
`plan_values` list, `optimize_plan` returns the first-encountered extremal
recorded pair (maximal cost for `maximize`, minimal otherwise). -/
theorem optimize_plan_select_firstExtremal {α : Type} (opt_name : String)
    (invalid_reason : α → Option String) (occupancy : α → ℚ)
    (plan_generator : List α) (target_func : α → BenchValue)
    (maximize : Bool) (occupancy_slack : ℚ)
    (hsurv : survivingPlans invalid_reason plan_generator ≠ [])
    (hpv : recordedPlanValues invalid_reason occupancy plan_generator
      target_func occupancy_slack ≠ []) :
    ∃ (i : Nat) (p : α) (v : ℚ),
      (recordedPlanValues invalid_reason occupancy plan_generator target_func
        occupancy_slack).get? i = some ((i, p), v) ∧
      optimize_plan opt_name invalid_reason occupancy plan_generator
        target_func maximize [] occupancy_slack = .ok (p, v) ∧
      (∀ e ∈ recordedPlanValues invalid_reason occupancy plan_generator
          target_func occupancy_slack,
        if maximize then e.2 ≤ v else v ≤ e.2) ∧
      (∀ (j : Nat) (e : (Nat × α) × ℚ), j < i →
        (recordedPlanValues invalid_reason occupancy plan_generator
          target_func occupancy_slack).get? j = some e →
        if maximize then e.2 < v else v < e.2) := by
  rw [optimize_plan_eq_select _ _ _ _ _ _ _ hsurv]
  cases maximize
  · rcases firstArgmin_isSome _ hpv with ⟨e0, he0⟩
    rcases firstArgmin_spec _ e0 he0 with ⟨i, hget, hmin, hfirst⟩
    have hidx : e0.1.1 = i := by
      have := planScan_fst_idx occupancy target_func _ _ 0 i e0 hget
      omega
    have hgetidx : (recordedPlanValues invalid_reason occupancy plan_generator
        target_func occupancy_slack).get? e0.1.1 = some e0 := by
      rw [hidx]; exact hget
    refine ⟨i, e0.1.2, e0.2, ?_, ?_, ?_, ?_⟩
    · have he : ((i, e0.1.2), e0.2) = e0 := by rw [← hidx]
      rw [he]; exact hget
    · simp only [Bool.false_eq_true, if_false, argmin2_eq_firstArgmin, he0,
        Option.map_some']
      rw [hgetidx]
    · intro e he; simpa using hmin e he
    · intro j e hj hgetj; simpa using hfirst j e hj hgetj
  · rcases firstArgmax_isSome _ hpv with ⟨e0, he0⟩
    rcases firstArgmax_spec _ e0 he0 with ⟨i, hget, hmax, hfirst⟩
    have hidx : e0.1.1 = i := by
      have := planScan_fst_idx occupancy target_func _ _ 0 i e0 hget
      omega
    have hgetidx : (recordedPlanValues invalid_reason occupancy plan_generator
        target_func occupancy_slack).get? e0.1.1 = some e0 := by
      rw [hidx]; exact hget
    refine ⟨i, e0.1.2, e0.2, ?_, ?_, ?_, ?_⟩
    · have he : ((i, e0.1.2), e0.2) = e0 := by rw [← hidx]
      rw [he]; exact hget
    · simp only [if_true, argmax2_eq_firstArgmax, he0, Option.map_some']
      rw [hgetidx]
    · intro e he; simpa using hmax e he
    · intro j e hj hgetj; simpa using hfirst j e hj hgetj

/-- C5: with the default flag set, once the benchmarking scan has recorded a
non-empty `plan_values` list, `optimize_plan` returns the recorded pair of
largest cost when `maximize` is true and of smallest cost when `maximize`
is false; among pairs sharing the extremal cost the first-encountered one
(in benchmarking order) is returned. -/
theorem optimize_plan_extremal_selection {α : Type} (opt_name : String)
    (invalid_reason : α → Option String) (occupancy : α → ℚ)
    (plan_generator : List α) (target_func : α → BenchValue)
    (maximize : Bool) (occupancy_slack : ℚ)
    (hsurv : survivingPlans invalid_reason plan_generator ≠ [])
    (hpv : recordedPlanValues invalid_reason occupancy plan_generator
      target_func occupancy_slack ≠ []) :
    ∃ (i : Nat) (p : α) (v : ℚ),
      (recordedPlanValues invalid_reason occupancy plan_generator target_func
        occupancy_slack).get? i = some ((i, p), v) ∧
      optimize_plan opt_name invalid_reason occupancy plan_generator
        target_func maximize [] occupancy_slack = .ok (p, v) ∧
      (∀ e ∈ recordedPlanValues invalid_reason occupancy plan_generator
          target_func occupancy_slack,
        if maximize then e.2 ≤ v else v ≤ e.2) ∧
      (∀ (j : Nat) (e : (Nat × α) × ℚ), j < i →
        (recordedPlanValues invalid_reason occupancy plan_generator
          target_func occupancy_slack).get? j = some e →
        if maximize then e.2 < v else v < e.2) :=
  optimize_plan_select_firstExtremal opt_name invalid_reason occupancy
    plan_generator target_func maximize occupancy_slack hsurv hpv

/-- C1 (amended): if at least one surviving (valid) plan passes the
occupancy-slack cut and the benchmark returns a non-`None` cost for it,
then `optimize_plan` (with the default empty flag set) returns a pair
`(plan, cost)` whose plan was produced by the generator with
`invalid_reason()` `None`, and whose cost is exactly the scalar value (the
first tuple element, when the benchmark returned a tuple) the benchmark
returned for that plan. -/
theorem optimize_plan_returns_valid_benchmarked {α : Type} (opt_name : String)
    (invalid_reason : α → Option String) (occupancy : α → ℚ)
    (plan_generator : List α) (target_func : α → BenchValue)
    (maximize : Bool) (occupancy_slack : ℚ)
    (hex : ∃ p ∈ survivingPlans invalid_reason plan_generator,
      desiredOccup occupancy occupancy_slack
          (survivingPlans invalid_reason plan_generator) - eps ≤ occupancy p ∧
      benchCost (target_func p) ≠ Option.none) :
    ∃ (q : α) (v : ℚ),
      optimize_plan opt_name invalid_reason occupancy plan_generator
        target_func maximize [] occupancy_slack = .ok (q, v) ∧
      q ∈ plan_generator ∧ invalid_reason q = Option.none ∧
      benchCost (target_func q) = some v := by
  rcases hex with ⟨p, hpmem, hocc, hbench⟩
  have hsurv : survivingPlans invalid_reason plan_generator ≠ [] := by
    intro hc; rw [hc] at hpmem; simp at hpmem
  have hpv : recordedPlanValues invalid_reason occupancy plan_generator
      target_func occupancy_slack ≠ [] :=
    planScan_fst_ne_nil _ _ _ _ 0 p hpmem hocc hbench
  rcases optimize_plan_select_firstExtremal opt_name invalid_reason occupancy
      plan_generator target_func maximize occupancy_slack hsurv hpv with
    ⟨i, q, v, hget, hok, _, _⟩
  refine ⟨q, v, hok, ?_, ?_, ?_⟩
  · have hmem : ((i, q), v) ∈ recordedPlanValues invalid_reason occupancy
        plan_generator target_func occupancy_slack := List.get?_mem hget
    have := (planScan_fst_mem occupancy target_func _ _ 0 _ hmem).1
    exact (List.mem_filter.mp this).1
  · have hmem : ((i, q), v) ∈ recordedPlanValues invalid_reason occupancy
        plan_generator target_func occupancy_slack := List.get?_mem hget
    have := (planScan_fst_mem occupancy target_func _ _ 0 _ hmem).1
    have hb := (List.mem_filter.mp this).2
    exact Option.isNone_iff_eq_none.mp (by simpa using hb)
  · have hmem : ((i, q), v) ∈ recordedPlanValues invalid_reason occupancy
        plan_generator target_func occupancy_slack := List.get?_mem hget
    exact (planScan_fst_mem occupancy target_func _ _ 0 _ hmem).2.1

theorem findMbLoop_some {align_size dofs_per_el : Nat} :
    ∀ (fuel chunks : Nat) (mb : MicroblockInfo),
      findMbLoop align_size dofs_per_el chunks fuel = some mb →
      ∃ k, chunks ≤ k ∧ k < chunks + fuel ∧
        mbOverheadOk align_size dofs_per_el k = true ∧
        (∀ c, chunks ≤ c → c < k → mbOverheadOk align_size dofs_per_el c = false) ∧
        mb = mbInfoAt align_size dofs_per_el k := by
  intro fuel
  induction fuel with
  | zero => intro chunks mb h; simp [findMbLoop] at h
  | succ f ih =>
    intro chunks mb h
    by_cases hc : mbOverheadOk align_size dofs_per_el chunks = true
    · have hmb : mb = mbInfoAt align_size dofs_per_el chunks := by
        have := h
        simp [findMbLoop, hc] at this
        exact this.symm
      exact ⟨chunks, le_refl _, by omega, hc, fun c h1 h2 => by omega, hmb⟩
    · have h' : findMbLoop align_size dofs_per_el (chunks + 1) f = some mb := by
        simpa [findMbLoop, hc] using h
      rcases ih (chunks + 1) mb h' with ⟨k, hk1, hk2, hk3, hk4, hk5⟩
      refine ⟨k, by omega, by omega, hk3, ?_, hk5⟩
      intro c h1 h2
      rcases Nat.eq_or_lt_of_le h1 with rfl | h1'
      · exact Bool.eq_false_iff.mpr hc
      · exact hk4 c (by omega) h2

theorem findMbLoop_none {align_size dofs_per_el : Nat} :
    ∀ (fuel chunks : Nat),
      (∀ c, chunks ≤ c → c < chunks + fuel →
        mbOverheadOk align_size dofs_per_el c = false) →
      findMbLoop align_size dofs_per_el chunks fuel = Option.none := by
  intro fuel
  induction fuel with
  | zero => intro chunks _; simp [findMbLoop]
  | succ f ih =>
    intro chunks hall
    have hc : mbOverheadOk align_size dofs_per_el chunks = false :=
      hall chunks (le_refl _) (by omega)
    have := ih (chunks + 1) fun c h1 h2 => hall c (by omega) (by omega)
    simp [findMbLoop, hc, this]

theorem int_ceiling_spec (value multiple_of : Nat) (h : 0 < multiple_of) :
    multiple_of ∣ int_ceiling value multiple_of ∧
    value ≤ int_ceiling value multiple_of ∧
    ∀ m, multiple_of ∣ m → value ≤ m → int_ceiling value multiple_of ≤ m := by
  refine ⟨⟨(value + multiple_of - 1) / multiple_of, Nat.mul_comm _ _⟩, ?_, ?_⟩
  · rcases Nat.eq_zero_or_pos value with rfl | hv
    · exact Nat.zero_le _
    · have hdm := Nat.div_add_mod (value + multiple_of - 1) multiple_of
      have hmod := Nat.mod_lt (value + multiple_of - 1) h
      unfold int_ceiling
      rw [Nat.mul_comm]
      omega
  · intro m hdvd hle
    rcases hdvd with ⟨t, rfl⟩
    have h1 : value + multiple_of - 1 ≤ multiple_of * t + (multiple_of - 1) := by
      omega
    have h2 : (value + multiple_of - 1) / multiple_of ≤
        (multiple_of * t + (multiple_of - 1)) / multiple_of :=
      Nat.div_le_div_right h1
    have h3 : (multiple_of * t + (multiple_of - 1)) / multiple_of = t := by
      rw [Nat.mul_add_div h]
      have : (multiple_of - 1) / multiple_of = 0 := Nat.div_eq_of_lt (by omega)
      omega
    unfold int_ceiling
    calc ((value + multiple_of - 1) / multiple_of) * multiple_of
        ≤ t * multiple_of := Nat.mul_le_mul_right _ (h3 ▸ h2)
      _ = multiple_of * t := Nat.mul_comm _ _

/-- C6: with microblocking allowed, `_find_microblock_size` scans the
block-alignment multiples `1..255` in increasing order and returns, for the
first one whose padding overhead is at most 5%, the microblock with
`aligned_floats` equal to that multiple of the alignment size and
`elements` equal to `aligned_floats` integer-divided by the per-element DOF
count; if no multiple in the scanned range satisfies the bound, the
construction fails (the `assert False`).  With microblocking disallowed,
the microblock has exactly one element and `aligned_floats` equal to the
per-element DOF count rounded up to the alignment size (least multiple of
`align_size` that is at least `dofs_per_el`). -/
theorem find_microblock_size_spec (align_size dofs_per_el : Nat)
    (ha : 0 < align_size) (hd : 0 < dofs_per_el) :
    (∀ mb, find_microblock_size align_size dofs_per_el true = some mb →
      ∃ k, 1 ≤ k ∧ k ≤ 255 ∧
        mbOverheadOk align_size dofs_per_el k = true ∧
        (∀ c, 1 ≤ c → c < k → mbOverheadOk align_size dofs_per_el c = false) ∧
        mb.align_size = align_size ∧
        mb.aligned_floats = align_size * k ∧
        mb.elements = mb.aligned_floats / dofs_per_el) ∧
    ((∀ c, 1 ≤ c → c ≤ 255 → mbOverheadOk align_size dofs_per_el c = false) →
      find_microblock_size align_size dofs_per_el true = Option.none) ∧
    (find_microblock_size align_size dofs_per_el false =
      some { align_size := align_size, elements := 1,
             aligned_floats := int_ceiling dofs_per_el align_size }) ∧
    (align_size ∣ int_ceiling dofs_per_el align_size ∧
      dofs_per_el ≤ int_ceiling dofs_per_el align_size ∧
      ∀ m, align_size ∣ m → dofs_per_el ≤ m →
        int_ceiling dofs_per_el align_size ≤ m) := by
  refine ⟨?_, ?_, ?_, int_ceiling_spec dofs_per_el align_size ha⟩
  · intro mb h
    have h' : findMbLoop align_size dofs_per_el 1 255 = some mb := by
      simpa [find_microblock_size] using h
    rcases findMbLoop_some 255 1 mb h' with ⟨k, hk1, hk2, hk3, hk4, hk5⟩
    refine ⟨k, hk1, by omega, hk3, fun c h1 h2 => hk4 c h1 h2, ?_, ?_, ?_⟩
    · rw [hk5]; rfl
    · rw [hk5]; rfl
    · rw [hk5]; rfl
  · intro hall
    have := findMbLoop_none 255 1 fun c h1 h2 => hall c h1 (by omega)
    simpa [find_microblock_size] using this
  · simp [find_microblock_size]

theorem mem_dinsert (xs : List Expr) (y a : Expr) :
    a ∈ dinsert xs y ↔ a ∈ xs ∨ a = y := by
  by_cases h : y ∈ xs
  · simp only [dinsert, if_pos h]
    constructor
    · exact Or.inl
    · rintro (ha | rfl)
      · exact ha
      · exact h
  · simp [dinsert, if_neg h]

theorem mem_dunion (ys xs : List Expr) (a : Expr) :
    a ∈ dunion xs ys ↔ a ∈ xs ∨ a ∈ ys := by
  induction ys generalizing xs with
  | nil => simp [dunion]
  | cons y yt ih =>
    show a ∈ dunion (dinsert xs y) yt ↔ _
    rw [ih, mem_dinsert]
    constructor
    · rintro ((h | rfl) | h)
      · exact Or.inl h
      · exact Or.inr (List.mem_cons_self _ _)
      · exact Or.inr (List.mem_cons_of_mem _ h)
    · rintro (h | h)
      · exact Or.inl (Or.inl h)
      · rcases List.mem_cons.mp h with rfl | h'
        · exact Or.inl (Or.inr rfl)
        · exact Or.inr h'

theorem dinsert_nodup (xs : List Expr) (y : Expr) (h : xs.Nodup) :
    (dinsert xs y).Nodup := by
  by_cases hy : y ∈ xs
  · simpa [dinsert, if_pos hy] using h
  · rw [dinsert, if_neg hy]
    exact List.Nodup.append h (List.nodup_singleton y) (by simpa using hy)

theorem dunion_nodup (ys xs : List Expr) (h : xs.Nodup) :
    (dunion xs ys).Nodup := by
  induction ys generalizing xs with
  | nil => exact h
  | cons y yt ih => exact ih (dinsert xs y) (dinsert_nodup xs y h)

theorem cveDeps_nodup (vec_exprs : List Expr) : (cveDeps vec_exprs).Nodup := by
  have general : ∀ (l : List Expr) (acc : List Expr), acc.Nodup →
      (l.foldl (fun acc ve => dunion acc (depList ve)) acc).Nodup := by
    intro l
    induction l with
    | nil => intro acc h; exact h
    | cons e t ih => intro acc h; exact ih _ (dunion_nodup _ _ h)
  exact general vec_exprs [] List.nodup_nil

theorem depList_isLeafDep (e : Expr) : ∀ d ∈ depList e, isLeafDep d = true := by
  induction e with
  | var n => intro d hd; rcases List.mem_singleton.mp hd with rfl; rfl
  | const c => intro d hd; simp [depList] at hd
  | subscript a i iha ihi =>
    intro d hd; rcases List.mem_singleton.mp hd with rfl; rfl
  | add a b iha ihb =>
    intro d hd
    rcases (mem_dunion _ _ _).mp hd with h | h
    · exact iha d h
    · exact ihb d h
  | sub a b iha ihb =>
    intro d hd
    rcases (mem_dunion _ _ _).mp hd with h | h
    · exact iha d h
    · exact ihb d h
  | mul a b iha ihb =>
    intro d hd
    rcases (mem_dunion _ _ _).mp hd with h | h
    · exact iha d h
    · exact ihb d h
  | call f x ihf ihx => intro d hd; exact ihx d hd
  | cse c ihc => intro d hd; exact ihc d hd

theorem cveDeps_isLeafDep (vec_exprs : List Expr) :
    ∀ d ∈ cveDeps vec_exprs, isLeafDep d = true := by
  have general : ∀ (l : List Expr) (acc : List Expr),
      (∀ d ∈ acc, isLeafDep d = true) →
      ∀ d ∈ l.foldl (fun acc ve => dunion acc (depList ve)) acc,
        isLeafDep d = true := by
    intro l
    induction l with
    | nil => intro acc h; exact h
    | cons e t ih =>
      intro acc h
      refine ih _ ?_
      intro d hd
      rcases (mem_dunion _ _ _).mp hd with h' | h'
      · exact h d h'
      · exact depList_isLeafDep e d h'
  exact general vec_exprs [] (by intro d hd; simp at hd)

/-- C7: the builder's construction places every collected dependency into
exactly one of the vector-dependency and scalar-dependency lists — in the
vector list iff the classifier predicate holds, in the scalar list iff it
does not, with no dependency in both and none omitted from both. -/
theorem compiledVE_partition (vec_exprs : List Expr)
    (is_vector_func : Expr → Bool) (hne : vec_exprs ≠ []) :
    ∀ d ∈ cveDeps vec_exprs,
      (d ∈ (mkCompiledVE vec_exprs is_vector_func).vector_exprs ↔
        is_vector_func d = true) ∧
      (d ∈ (mkCompiledVE vec_exprs is_vector_func).scalar_exprs ↔
        is_vector_func d = false) ∧
      ¬(d ∈ (mkCompiledVE vec_exprs is_vector_func).vector_exprs ∧
        d ∈ (mkCompiledVE vec_exprs is_vector_func).scalar_exprs) ∧
      (d ∈ (mkCompiledVE vec_exprs is_vector_func).vector_exprs ∨
        d ∈ (mkCompiledVE vec_exprs is_vector_func).scalar_exprs) := by
  intro d hd
  have hv : d ∈ (mkCompiledVE vec_exprs is_vector_func).vector_exprs ↔
      is_vector_func d = true := by
    simp [mkCompiledVE, cveVector, List.mem_filter, hd]
  have hs : d ∈ (mkCompiledVE vec_exprs is_vector_func).scalar_exprs ↔
      is_vector_func d = false := by
    simp [mkCompiledVE, cveScalar, List.mem_filter, hd]
  refine ⟨hv, hs, ?_, ?_⟩
  · rintro ⟨h1, h2⟩
    rw [hv.mp h1] at *
    exact Bool.noConfusion (hs.mp h2)
  · cases hb : is_vector_func d
    · exact Or.inr (hs.mpr hb)
    · exact Or.inl (hv.mpr hb)

/-- C8: builder construction is deterministic — two constructions over the
same target-expression list and classifier agree on the dependency lists
and on the generated names, and the names are `v0, v1, ...` and
`s0, s1, ...` assigned in the order of the deduplicated, insertion-ordered
dependency collection. -/
theorem compiledVE_deterministic (vec_exprs : List Expr)
    (is_vector_func : Expr → Bool) (b1 b2 : CompiledVE)
    (h1 : b1 = mkCompiledVE vec_exprs is_vector_func)
    (h2 : b2 = mkCompiledVE vec_exprs is_vector_func) :
    b1.vector_exprs = b2.vector_exprs ∧ b1.scalar_exprs = b2.scalar_exprs ∧
    b1.vector_names = b2.vector_names ∧ b1.scalar_names = b2.scalar_names ∧
    b1.exprs = b2.exprs ∧
    b1.vector_names =
      (List.range b1.vector_exprs.length).map (fun i => "v" ++ toString i) ∧
    b1.scalar_names =
      (List.range b1.scalar_exprs.length).map (fun i => "s" ++ toString i) := by
  subst h1; subst h2
  refine ⟨rfl, rfl, rfl, rfl, rfl, ?_, ?_⟩
  · rfl
  · rfl

theorem find_zip_nodup (xs : List Expr) (ys : List Expr) (k : Nat)
    (d : Expr) (y : Expr) (hnd : xs.Nodup) (hx : xs.get? k = some d)
    (hy : ys.get? k = some y) :
    (xs.zip ys).find? (fun p => p.1 == d) = some (d, y) := by
  induction xs generalizing ys k with
  | nil => simp at hx
  | cons x xt ih =>
    cases ys with
    | nil => simp at hy
    | cons y0 yt =>
      cases k with
      | zero =>
        have hxd : x = d := by simpa using hx
        have hyy : y0 = y := by simpa using hy
        subst hxd; subst hyy
        simp [List.zip_cons_cons, List.find?]
      | succ j =>
        have hx' : xt.get? j = some d := by simpa using hx
        have hy' : yt.get? j = some y := by simpa using hy
        have hdmem : d ∈ xt := List.get?_mem hx'
        have hxd : x ≠ d := by
          intro hc; subst hc
          exact (List.nodup_cons.mp hnd).1 hdmem
        have hpred : (x == d) = false := beq_eq_false_iff_ne.mpr hxd
        rw [List.zip_cons_cons, List.find?_cons]
        simp only [hpred]
        exact ih yt j (List.nodup_cons.mp hnd).2 hx' hy'

theorem find?_eq_none_of_all_false {γ : Type} (p : γ → Bool) (l : List γ)
    (h : ∀ x ∈ l, p x = false) : l.find? p = Option.none := by
  rw [List.find?_eq_none]
  intro x hx
  rw [h x hx]
  exact Bool.noConfusion

/-- The lookup of the `k`-th vector dependency in `subst_map` yields the
indexed reference `v_k[i]`. -/
theorem substLookup_vector (vec_exprs : List Expr)
    (is_vector_func : Expr → Bool) (k : Nat) (d : Expr)
    (hx : (cveVector vec_exprs is_vector_func).get? k = some d) :
    substLookup (cveSubstMap vec_exprs is_vector_func) d =
      some (.subscript (.var ("v" ++ toString k)) (.var "i")) := by
  have hnd : (cveVector vec_exprs is_vector_func).Nodup :=
    List.Nodup.filter _ (cveDeps_nodup vec_exprs)
  have hk : k < (cveVector vec_exprs is_vector_func).length := by
    by_contra hc
    rw [List.get?_eq_none.mpr (le_of_not_lt hc)] at hx
    exact Option.noConfusion hx
  have hy : ((vectorNames (cveVector vec_exprs is_vector_func).length).map
      fun n => Expr.subscript (.var n) (.var "i")).get? k =
      some (.subscript (.var ("v" ++ toString k)) (.var "i")) := by
    rw [List.get?_eq_getElem?, List.getElem?_map]
    rw [vectorNames, List.getElem?_map, List.getElem?_range hk]
    rfl
  have hfind := find_zip_nodup _ _ k d _ hnd hx hy
  rw [substLookup, cveSubstMap, List.find?_append, hfind]
  rfl

/-- The lookup of the `k`-th scalar dependency in `subst_map` yields the
plain reference `s_k`. -/
theorem substLookup_scalar (vec_exprs : List Expr)
    (is_vector_func : Expr → Bool) (k : Nat) (d : Expr)
    (hx : (cveScalar vec_exprs is_vector_func).get? k = some d) :
    substLookup (cveSubstMap vec_exprs is_vector_func) d =
      some (.var ("s" ++ toString k)) := by
  have hnd : (cveScalar vec_exprs is_vector_func).Nodup :=
    List.Nodup.filter _ (cveDeps_nodup vec_exprs)
  have hk : k < (cveScalar vec_exprs is_vector_func).length := by
    by_contra hc
    rw [List.get?_eq_none.mpr (le_of_not_lt hc)] at hx
    exact Option.noConfusion hx
  have hdmem : d ∈ cveScalar vec_exprs is_vector_func := List.get?_mem hx
  have hdnotvec : is_vector_func d = false := by
    have := (List.mem_filter.mp hdmem).2
    simpa using this
  have hy : ((scalarNames (cveScalar vec_exprs is_vector_func).length).map
      fun n => Expr.var n).get? k = some (.var ("s" ++ toString k)) := by
    rw [List.get?_eq_getElem?, List.getElem?_map]
    rw [scalarNames, List.getElem?_map, List.getElem?_range hk]
    rfl
  have hfind := find_zip_nodup _ _ k d _ hnd hx hy
  have hnone : ((cveVector vec_exprs is_vector_func).zip
      ((vectorNames (cveVector vec_exprs is_vector_func).length).map
        fun n => Expr.subscript (.var n) (.var "i"))).find?
      (fun p => p.1 == d) = Option.none := by
    refine find?_eq_none_of_all_false _ _ ?_
    intro x hxmem
    have hx1 : x.1 ∈ cveVector vec_exprs is_vector_func := by
      rcases x with ⟨x1, x2⟩
      exact (List.of_mem_zip hxmem).1
    have hx1vec : is_vector_func x.1 = true := by
      have := (List.mem_filter.mp hx1).2
      simpa using this
    refine beq_eq_false_iff_ne.mpr ?_
    intro hc
    rw [hc, hdnotvec] at hx1vec
    exact Bool.noConfusion hx1vec
  rw [substLookup, cveSubstMap, List.find?_append, hnone, hfind]
  rfl

/-- A mapped dependency node (variable or subscript) is replaced by its
image under the substitution map. -/
theorem substApply_mapped (s : Expr → Option Expr) (d r : Expr)
    (hleaf : isLeafDep d = true) (hs : s d = some r) :
    substApply s d = r := by
  cases d with
  | var n => simp [substApply, hs]
  | subscript a i => simp [substApply, hs]
  | const c => simp [isLeafDep] at hleaf
  | add a b => simp [isLeafDep] at hleaf
  | sub a b => simp [isLeafDep] at hleaf
  | mul a b => simp [isLeafDep] at hleaf
  | call f x => simp [isLeafDep] at hleaf
  | cse c => simp [isLeafDep] at hleaf

/-- Default passthrough: an expression none of whose variable/subscript
nodes is covered by the substitution function is left entirely unchanged
(and the substitutor is a total function — it cannot fail). -/
theorem substApply_unmapped (s : Expr → Option Expr) :
    ∀ e : Expr, noMappedNode s e → substApply s e = e := by
  intro e
  induction e with
  | var n =>
    intro h
    have h' : s (.var n) = Option.none := h
    simp [substApply, h']
  | const c => intro h; simp [substApply]
  | subscript a i iha ihi =>
    intro h
    rcases h with ⟨h0, ha, hi⟩
    simp [substApply, h0, iha ha, ihi hi]
  | add a b iha ihb =>
    intro h; rcases h with ⟨ha, hb⟩
    simp [substApply, iha ha, ihb hb]
  | sub a b iha ihb =>
    intro h; rcases h with ⟨ha, hb⟩
    simp [substApply, iha ha, ihb hb]
  | mul a b iha ihb =>
    intro h; rcases h with ⟨ha, hb⟩
    simp [substApply, iha ha, ihb hb]
  | call f x ihf ihx =>
    intro h; rcases h with ⟨hf, hx⟩
    simp [substApply, ihf hf, ihx hx]
  | cse c ihc => intro h; simp [substApply, ihc h]

/-- C9: the rewrite step substitutes, in every target expression, each
vector dependency with the indexed reference `v_k[i]` (a single shared
loop index `i`) and each scalar dependency with the plain reference `s_k`;
the substitutor is total and leaves any expression containing no mapped
node unchanged. -/
theorem compiledVE_rewrite (vec_exprs : List Expr)
    (is_vector_func : Expr → Bool) :
    ((mkCompiledVE vec_exprs is_vector_func).exprs = vec_exprs.map
      (substApply (substLookup (cveSubstMap vec_exprs is_vector_func)))) ∧
    (∀ (k : Nat) (d : Expr),
      (mkCompiledVE vec_exprs is_vector_func).vector_exprs.get? k = some d →
      substApply (substLookup (cveSubstMap vec_exprs is_vector_func)) d =
        .subscript (.var ("v" ++ toString k)) (.var "i")) ∧
    (∀ (k : Nat) (d : Expr),
      (mkCompiledVE vec_exprs is_vector_func).scalar_exprs.get? k = some d →
      substApply (substLookup (cveSubstMap vec_exprs is_vector_func)) d =
        .var ("s" ++ toString k)) ∧
    (∀ e : Expr,
      noMappedNode (substLookup (cveSubstMap vec_exprs is_vector_func)) e →
      substApply (substLookup (cveSubstMap vec_exprs is_vector_func)) e = e) := by
  refine ⟨rfl, ?_, ?_, substApply_unmapped _⟩
  · intro k d hget
    have hleaf : isLeafDep d = true := by
      have hdmem : d ∈ cveVector vec_exprs is_vector_func := List.get?_mem hget
      exact cveDeps_isLeafDep vec_exprs d (List.mem_filter.mp hdmem).1
    exact substApply_mapped _ _ _ hleaf (substLookup_vector _ _ k d hget)
  · intro k d hget
    have hleaf : isLeafDep d = true := by
      have hdmem : d ∈ cveScalar vec_exprs is_vector_func := List.get?_mem hget
      exact cveDeps_isLeafDep vec_exprs d (List.mem_filter.mp hdmem).1
    exact substApply_mapped _ _ _ hleaf (substLookup_scalar _ _ k d hget)

theorem ccode_cses_prefix : ∀ (e : Expr) (st : CseState),
    ∃ ext, (ccode e st).2.cses = st.cses ++ ext := by
  intro e
  induction e with
  | var n => intro st; exact ⟨[], by simp [ccode]⟩
  | const c => intro st; exact ⟨[], by simp [ccode]⟩
  | subscript a i iha ihi =>
    intro st
    rcases iha st with ⟨e1, h1⟩
    rcases ihi (ccode a st).2 with ⟨e2, h2⟩
    exact ⟨e1 ++ e2, by simp [ccode, h2, h1]⟩
  | add a b iha ihb =>
    intro st
    rcases iha st with ⟨e1, h1⟩
    rcases ihb (ccode a st).2 with ⟨e2, h2⟩
    exact ⟨e1 ++ e2, by simp [ccode, h2, h1]⟩
  | sub a b iha ihb =>
    intro st
    rcases iha st with ⟨e1, h1⟩
    rcases ihb (ccode a st).2 with ⟨e2, h2⟩
    exact ⟨e1 ++ e2, by simp [ccode, h2, h1]⟩
  | mul a b iha ihb =>
    intro st
    rcases iha st with ⟨e1, h1⟩
    rcases ihb (ccode a st).2 with ⟨e2, h2⟩
    exact ⟨e1 ++ e2, by simp [ccode, h2, h1]⟩
  | call f x ihf ihx =>
    intro st
    rcases ihf st with ⟨e1, h1⟩
    rcases ihx (ccode f st).2 with ⟨e2, h2⟩
    exact ⟨e1 ++ e2, by simp [ccode, h2, h1]⟩
  | cse c ihc =>
    intro st
    rcases h : st.cses.findIdx? (fun p => p.1 == c) with _ | i
    · rcases ihc st with ⟨e1, h1⟩
      exact ⟨e1 ++ [(c, (ccode c st).1)], by simp [ccode, h, h1]⟩
    · exact ⟨[], by simp [ccode, h]⟩

theorem occursCse_esize : ∀ (e c : Expr), occursCse c e = true →
    esize c < esize e := by
  intro e
  induction e with
  | var n => intro c h; simp [occursCse] at h
  | const k => intro c h; simp [occursCse] at h
  | subscript a i iha ihi =>
    intro c h
    rcases (by simpa [occursCse] using h :
        occursCse c a = true ∨ occursCse c i = true) with h' | h'
    · have := iha c h'; simp only [esize]; omega
    · have := ihi c h'; simp only [esize]; omega
  | add a b iha ihb =>
    intro c h
    rcases (by simpa [occursCse] using h :
        occursCse c a = true ∨ occursCse c b = true) with h' | h'
    · have := iha c h'; simp only [esize]; omega
    · have := ihb c h'; simp only [esize]; omega
  | sub a b iha ihb =>
    intro c h
    rcases (by simpa [occursCse] using h :
        occursCse c a = true ∨ occursCse c b = true) with h' | h'
    · have := iha c h'; simp only [esize]; omega
    · have := ihb c h'; simp only [esize]; omega
  | mul a b iha ihb =>
    intro c h
    rcases (by simpa [occursCse] using h :
        occursCse c a = true ∨ occursCse c b = true) with h' | h'
    · have := iha c h'; simp only [esize]; omega
    · have := ihb c h'; simp only [esize]; omega
  | call f x ihf ihx =>
    intro c h
    rcases (by simpa [occursCse] using h :
        occursCse c f = true ∨ occursCse c x = true) with h' | h'
    · have := ihf c h'; simp only [esize]; omega
    · have := ihx c h'; simp only [esize]; omega
  | cse c' ihc =>
    intro c h
    rcases (by simpa [occursCse] using h :
        c' = c ∨ occursCse c c' = true) with rfl | h'
    · simp only [esize]; omega
    · have := ihc c h'; simp only [esize]; omega

theorem ccode_new_keys : ∀ (e : Expr) (st : CseState) (c : Expr),
    c ∈ (ccode e st).2.cses.map Prod.fst →
    c ∈ st.cses.map Prod.fst ∨ occursCse c e = true := by
  intro e
  induction e with
  | var n => intro st c h; exact Or.inl (by simpa [ccode] using h)
  | const k => intro st c h; exact Or.inl (by simpa [ccode] using h)
  | subscript a i iha ihi =>
    intro st c h
    have h2 : c ∈ (ccode i (ccode a st).2).2.cses.map Prod.fst := by
      simpa [ccode] using h
    rcases ihi _ c h2 with h3 | h3
    · rcases iha st c h3 with h4 | h4
      · exact Or.inl h4
      · exact Or.inr (by simp [occursCse, h4])
    · exact Or.inr (by simp [occursCse, h3])
  | add a b iha ihb =>
    intro st c h
    have h2 : c ∈ (ccode b (ccode a st).2).2.cses.map Prod.fst := by
      simpa [ccode] using h
    rcases ihb _ c h2 with h3 | h3
    · rcases iha st c h3 with h4 | h4
      · exact Or.inl h4
      · exact Or.inr (by simp [occursCse, h4])
    · exact Or.inr (by simp [occursCse, h3])
  | sub a b iha ihb =>
    intro st c h
    have h2 : c ∈ (ccode b (ccode a st).2).2.cses.map Prod.fst := by
      simpa [ccode] using h
    rcases ihb _ c h2 with h3 | h3
    · rcases iha st c h3 with h4 | h4
      · exact Or.inl h4
      · exact Or.inr (by simp [occursCse, h4])
    · exact Or.inr (by simp [occursCse, h3])
  | mul a b iha ihb =>
    intro st c h
    have h2 : c ∈ (ccode b (ccode a st).2).2.cses.map Prod.fst := by
      simpa [ccode] using h
    rcases ihb _ c h2 with h3 | h3
    · rcases iha st c h3 with h4 | h4
      · exact Or.inl h4
      · exact Or.inr (by simp [occursCse, h4])
    · exact Or.inr (by simp [occursCse, h3])
  | call f x ihf ihx =>
    intro st c h
    have h2 : c ∈ (ccode x (ccode f st).2).2.cses.map Prod.fst := by
      simpa [ccode] using h
    rcases ihx _ c h2 with h3 | h3
    · rcases ihf st c h3 with h4 | h4
      · exact Or.inl h4
      · exact Or.inr (by simp [occursCse, h4])
    · exact Or.inr (by simp [occursCse, h3])
  | cse c' ihc =>
    intro st c h
    rcases hf : st.cses.findIdx? (fun p => p.1 == c') with _ | i
    · have h2 : c ∈ (ccode c' st).2.cses.map Prod.fst ∨ c = c' := by
        have := h
        simp only [ccode, hf] at this
        simpa using this
      rcases h2 with h3 | rfl
      · rcases ihc st c h3 with h4 | h4
        · exact Or.inl h4
        · exact Or.inr (by simp [occursCse, h4])
      · exact Or.inr (by simp [occursCse])
    · refine Or.inl ?_
      have := h
      simp only [ccode, hf] at this
      exact this

theorem ccode_keys_nodup : ∀ (e : Expr) (st : CseState),
    (st.cses.map Prod.fst).Nodup → ((ccode e st).2.cses.map Prod.fst).Nodup := by
  intro e
  induction e with
  | var n => intro st h; simpa [ccode] using h
  | const k => intro st h; simpa [ccode] using h
  | subscript a i iha ihi =>
    intro st h
    have := ihi (ccode a st).2 (iha st h)
    simpa [ccode] using this
  | add a b iha ihb =>
    intro st h
    have := ihb (ccode a st).2 (iha st h)
    simpa [ccode] using this
  | sub a b iha ihb =>
    intro st h
    have := ihb (ccode a st).2 (iha st h)
    simpa [ccode] using this
  | mul a b iha ihb =>
    intro st h
    have := ihb (ccode a st).2 (iha st h)
    simpa [ccode] using this
  | call f x ihf ihx =>
    intro st h
    have := ihx (ccode f st).2 (ihf st h)
    simpa [ccode] using this
  | cse c ihc =>
    intro st h
    rcases hf : st.cses.findIdx? (fun p => p.1 == c) with _ | i
    · have h1 : ((ccode c st).2.cses.map Prod.fst).Nodup := ihc st h
      have hnotin : c ∉ (ccode c st).2.cses.map Prod.fst := by
        intro hc
        rcases ccode_new_keys c st c hc with h2 | h2
        · have hall := List.findIdx?_eq_none_iff.mp hf
          rcases List.mem_map.mp h2 with ⟨pe, hpe, hpe1⟩
          have := hall pe hpe
          rw [hpe1] at this
          simp at this
        · exact absurd (occursCse_esize c c h2) (lt_irrefl _)
      have hgoal : (((ccode c st).2.cses ++ [(c, (ccode c st).1)]).map
          Prod.fst).Nodup := by
        rw [List.map_append]
        exact List.Nodup.append h1 (List.nodup_singleton c)
          (by simpa using hnotin)
      simpa [ccode, hf] using hgoal
    · simpa [ccode, hf] using h

theorem ccode_closed_bound : ∀ (e : Expr) (st : CseState), ClosedState st →
    ClosedState (ccode e st).2 ∧
    ∀ c, occursCse c e = true → c ∈ (ccode e st).2.cses.map Prod.fst := by
  intro e
  induction e with
  | var n =>
    intro st h
    refine ⟨by simpa [ccode] using h, ?_⟩
    intro c hc; simp [occursCse] at hc
  | const k =>
    intro st h
    refine ⟨by simpa [ccode] using h, ?_⟩
    intro c hc; simp [occursCse] at hc
  | subscript a i iha ihi =>
    intro st h
    rcases iha st h with ⟨hcl1, hb1⟩
    rcases ihi (ccode a st).2 hcl1 with ⟨hcl2, hb2⟩
    rcases ccode_cses_prefix i (ccode a st).2 with ⟨ext, hext⟩
    refine ⟨by simpa [ccode] using hcl2, ?_⟩
    intro c hc
    rcases (by simpa [occursCse] using hc :
        occursCse c a = true ∨ occursCse c i = true) with h' | h'
    · have hmem := hb1 c h'
      have : c ∈ (ccode i (ccode a st).2).2.cses.map Prod.fst := by
        rw [hext, List.map_append]
        exact List.mem_append_left _ hmem
      simpa [ccode] using this
    · have := hb2 c h'
      simpa [ccode] using this
  | add a b iha ihb =>
    intro st h
    rcases iha st h with ⟨hcl1, hb1⟩
    rcases ihb (ccode a st).2 hcl1 with ⟨hcl2, hb2⟩
    rcases ccode_cses_prefix b (ccode a st).2 with ⟨ext, hext⟩
    refine ⟨by simpa [ccode] using hcl2, ?_⟩
    intro c hc
    rcases (by simpa [occursCse] using hc :
        occursCse c a = true ∨ occursCse c b = true) with h' | h'
    · have hmem := hb1 c h'
      have : c ∈ (ccode b (ccode a st).2).2.cses.map Prod.fst := by
        rw [hext, List.map_append]
        exact List.mem_append_left _ hmem
      simpa [ccode] using this
    · have := hb2 c h'
      simpa [ccode] using this
  | sub a b iha ihb =>
    intro st h
    rcases iha st h with ⟨hcl1, hb1⟩
    rcases ihb (ccode a st).2 hcl1 with ⟨hcl2, hb2⟩
    rcases ccode_cses_prefix b (ccode a st).2 with ⟨ext, hext⟩
    refine ⟨by simpa [ccode] using hcl2, ?_⟩
    intro c hc
    rcases (by simpa [occursCse] using hc :
        occursCse c a = true ∨ occursCse c b = true) with h' | h'
    · have hmem := hb1 c h'
      have : c ∈ (ccode b (ccode a st).2).2.cses.map Prod.fst := by
        rw [hext, List.map_append]
        exact List.mem_append_left _ hmem
      simpa [ccode] using this
    · have := hb2 c h'
      simpa [ccode] using this
  | mul a b iha ihb =>
    intro st h
    rcases iha st h with ⟨hcl1, hb1⟩
    rcases ihb (ccode a st).2 hcl1 with ⟨hcl2, hb2⟩
    rcases ccode_cses_prefix b (ccode a st).2 with ⟨ext, hext⟩
    refine ⟨by simpa [ccode] using hcl2, ?_⟩
    intro c hc
    rcases (by simpa [occursCse] using hc :
        occursCse c a = true ∨ occursCse c b = true) with h' | h'
    · have hmem := hb1 c h'
      have : c ∈ (ccode b (ccode a st).2).2.cses.map Prod.fst := by
        rw [hext, List.map_append]
        exact List.mem_append_left _ hmem
      simpa [ccode] using this
    · have := hb2 c h'
      simpa [ccode] using this
  | call f x ihf ihx =>
    intro st h
    rcases ihf st h with ⟨hcl1, hb1⟩
    rcases ihx (ccode f st).2 hcl1 with ⟨hcl2, hb2⟩
    rcases ccode_cses_prefix x (ccode f st).2 with ⟨ext, hext⟩
    refine ⟨by simpa [ccode] using hcl2, ?_⟩
    intro c hc
    rcases (by simpa [occursCse] using hc :
        occursCse c f = true ∨ occursCse c x = true) with h' | h'
    · have hmem := hb1 c h'
      have : c ∈ (ccode x (ccode f st).2).2.cses.map Prod.fst := by
        rw [hext, List.map_append]
        exact List.mem_append_left _ hmem
      simpa [ccode] using this
    · have := hb2 c h'
      simpa [ccode] using this
  | cse c' ihc =>
    intro st h
    rcases hf : st.cses.findIdx? (fun p => p.1 == c') with _ | i
    · rcases ihc st h with ⟨hcl1, hb1⟩
      rcases ccode_cses_prefix c' st with ⟨ext, hext⟩
      have hclosed2 : ClosedState
          ⟨(ccode c' st).2.cses ++ [(c', (ccode c' st).1)]⟩ := by
        intro pe hpe c hc
        simp only [List.map_append]
        rcases List.mem_append.mp hpe with hpe' | hpe'
        · exact List.mem_append_left _ (hcl1 pe hpe' c hc)
        · rcases List.mem_singleton.mp hpe' with rfl
          exact List.mem_append_left _ (hb1 c hc)
      constructor
      · have : (ccode (.cse c') st).2 =
            ⟨(ccode c' st).2.cses ++ [(c', (ccode c' st).1)]⟩ := by
          simp [ccode, hf]
        rw [this]
        exact hclosed2
      · intro c hc
        have hstate : (ccode (.cse c') st).2 =
            ⟨(ccode c' st).2.cses ++ [(c', (ccode c' st).1)]⟩ := by
          simp [ccode, hf]
        rw [hstate]
        simp only [List.map_append]
        rcases (by simpa [occursCse] using hc :
            c' = c ∨ occursCse c c' = true) with rfl | h'
        · exact List.mem_append_right _ (by simp)
        · exact List.mem_append_left _ (hb1 c h')
    · have hstate : (ccode (.cse c') st).2 = st := by simp [ccode, hf]
      rw [hstate]
      refine ⟨h, ?_⟩
      intro c hc
      rcases List.findIdx?_eq_some_iff_getElem.mp hf with ⟨hlen, hpe, _⟩
      have hgi : st.cses[i].1 = c' := by simpa using hpe
      have hmemi : st.cses[i] ∈ st.cses := List.getElem_mem hlen
      rcases (by simpa [occursCse] using hc :
          c' = c ∨ occursCse c c' = true) with rfl | h'
      · exact List.mem_map.mpr ⟨st.cses[i], hmemi, hgi⟩
      · have := h st.cses[i] hmemi c (by rw [hgi]; exact h')
        exact this

/-- Invariants of stringifying a batch of expressions through one shared
common-subexpression state: the state only grows, stays closed, keeps its
binding keys duplicate-free, and after the run every common-subexpression
child occurring in any of the expressions is bound. -/
theorem runFold_spec : ∀ (es : List Expr) (acc : List String × CseState),
    ClosedState acc.2 → (acc.2.cses.map Prod.fst).Nodup →
    (∃ ext, (es.foldl
        (fun acc e =>
          let r := ccode e acc.2
          (acc.1 ++ [r.1], r.2)) acc).2.cses = acc.2.cses ++ ext) ∧
    ClosedState (es.foldl
        (fun acc e =>
          let r := ccode e acc.2
          (acc.1 ++ [r.1], r.2)) acc).2 ∧
    ((es.foldl
        (fun acc e =>
          let r := ccode e acc.2
          (acc.1 ++ [r.1], r.2)) acc).2.cses.map Prod.fst).Nodup ∧
    (∀ e ∈ es, ∀ c, occursCse c e = true →
      c ∈ ((es.foldl
        (fun acc e =>
          let r := ccode e acc.2
          (acc.1 ++ [r.1], r.2)) acc).2.cses.map Prod.fst)) := by
  intro es
  induction es with
  | nil =>
    intro acc h1 h2
    exact ⟨⟨[], by simp⟩, h1, h2, by intro e he; simp at he⟩
  | cons e t ih =>
    intro acc h1 h2
    rcases ccode_closed_bound e acc.2 h1 with ⟨hcl, hbound⟩
    have hnd : ((ccode e acc.2).2.cses.map Prod.fst).Nodup :=
      ccode_keys_nodup e acc.2 h2
    rcases ih (acc.1 ++ [(ccode e acc.2).1], (ccode e acc.2).2) hcl hnd with
      ⟨⟨ext2, hext2⟩, hcl2, hnd2, hbound2⟩
    rcases ccode_cses_prefix e acc.2 with ⟨ext1, hext1⟩
    refine ⟨⟨ext1 ++ ext2, ?_⟩, hcl2, hnd2, ?_⟩
    · rw [List.foldl_cons]
      rw [hext2, hext1]
      simp [List.append_assoc]
    · intro e' he' c hc
      rcases List.mem_cons.mp he' with rfl | he''
      · have hmem := hbound c hc
        rw [List.foldl_cons]
        rw [hext2, List.map_append]
        exact List.mem_append_left _ hmem
      · exact hbound2 e' he'' c hc

/-- C2: in the fused kernel body produced by `get_kernel`, each common
sub-expression binding is emitted exactly once (the collected binding keys
are duplicate-free, and the kernel body contains one binding line per
collected key), every common sub-expression occurring in any rewritten
target expression has a binding, and stringifying an occurrence of a bound
common sub-expression against the final state emits exactly the single
binding's generated name, leaving the binding list unchanged — it is
referenced, not recomputed. -/
theorem getKernel_cse_once (vec_exprs : List Expr)
    (is_vector_func : Expr → Bool) :
    (((runCcodeAll (mkCompiledVE vec_exprs is_vector_func).exprs).2.cses.map
      Prod.fst).Nodup) ∧
    (∀ e ∈ (mkCompiledVE vec_exprs is_vector_func).exprs, ∀ c,
      occursCse c e = true →
      c ∈ (runCcodeAll (mkCompiledVE vec_exprs is_vector_func).exprs).2.cses.map
        Prod.fst) ∧
    (∀ c, c ∈ (runCcodeAll (mkCompiledVE vec_exprs is_vector_func).exprs).2.cses.map
        Prod.fst →
      ∃ i, (runCcodeAll (mkCompiledVE vec_exprs is_vector_func).exprs).2.cses.findIdx?
          (fun p => p.1 == c) = some i ∧
        ccode (.cse c)
          (runCcodeAll (mkCompiledVE vec_exprs is_vector_func).exprs).2 =
          (cseName i, (runCcodeAll (mkCompiledVE vec_exprs is_vector_func).exprs).2)) := by
  have hinit1 : ClosedState (⟨[]⟩ : CseState) := by
    intro pe hpe; simp at hpe
  have hinit2 : (((⟨[]⟩ : CseState)).cses.map Prod.fst).Nodup := List.nodup_nil
  rcases runFold_spec (mkCompiledVE vec_exprs is_vector_func).exprs ([], ⟨[]⟩)
    hinit1 hinit2 with ⟨_, _, hnd, hbound⟩
  refine ⟨hnd, hbound, ?_⟩
  intro c hc
  rcases List.mem_map.mp hc with ⟨pe, hpe, hpe1⟩
  have hex : ∃ x ∈ (runCcodeAll
      (mkCompiledVE vec_exprs is_vector_func).exprs).2.cses,
      (fun p => p.1 == c) x = true := ⟨pe, hpe, by simp [hpe1]⟩
  have hidx := List.findIdx?_eq_some_of_exists hex
  refine ⟨_, hidx, ?_⟩
  simp [ccode, hidx]

/-- Shared helper: with surviving plans but an empty recorded
`plan_values`, the final `argmax2`/`argmin2` raises. -/
theorem optimize_plan_no_records_error {α : Type} (opt_name : String)
    (invalid_reason : α → Option String) (occupancy : α → ℚ)
    (plan_generator : List α) (target_func : α → BenchValue)
    (maximize : Bool) (occupancy_slack : ℚ)
    (hsurv : survivingPlans invalid_reason plan_generator ≠ [])
    (hpv : recordedPlanValues invalid_reason occupancy plan_generator
      target_func occupancy_slack = []) :
    optimize_plan opt_name invalid_reason occupancy plan_generator target_func
        maximize [] occupancy_slack =
      .error (if maximize then "argmax of empty iterable"
        else "argmin of empty iterable") := by
  rw [optimize_plan_eq_select _ _ _ _ _ _ _ hsurv, hpv]
  cases maximize <;> simp [argmax2, argmin2]

theorem cex_surv_eq : survivingPlans cplanInvalid cexPlans = cexPlans := rfl

theorem cex_pyMax :
    pyMax ((survivingPlans cplanInvalid cexPlans).map cplanOcc) = 1 := by
  show max 1 (1 / 10 : ℚ) = 1
  exact max_eq_left (by norm_num)

/-- C1 counterexample: the claim's hypotheses hold — the generator yields a
non-empty sequence of plans with `invalid_reason()` `None`, and the
benchmark returns a non-`None` cost for at least one surviving plan — yet
`optimize_plan` (at its default slack `0.5` and empty flag set) raises
instead of returning a pair: the only plan with a non-`None` cost is pruned
by the occupancy cut and never benchmarked. -/
theorem optimize_plan_c1_counterexample :
    cexPlans ≠ [] ∧
    (∃ p ∈ cexPlans, cplanInvalid p = Option.none) ∧
    (∃ p ∈ cexPlans, cplanInvalid p = Option.none ∧
      benchCost (cexTarget p) ≠ Option.none) ∧
    optimize_plan "diff" cplanInvalid cplanOcc cexPlans cexTarget false []
      (1 / 2) = .error "argmin of empty iterable" := by
  refine ⟨by decide, by decide, by decide, ?_⟩
  have hsurv : survivingPlans cplanInvalid cexPlans ≠ [] := by
    rw [cex_surv_eq]; decide
  have hnone : ∀ p ∈ survivingPlans cplanInvalid cexPlans,
      desiredOccup cplanOcc (1 / 2) (survivingPlans cplanInvalid cexPlans)
        - eps ≤ cplanOcc p →
      benchCost (cexTarget p) = Option.none := by
    intro p hp hocc
    rw [cex_surv_eq] at hp
    have hp' : p = (⟨0, Option.none, 1⟩ : CPlan) ∨
        p = (⟨1, Option.none, 1 / 10⟩ : CPlan) := by
      simpa [cexPlans] using hp
    rcases hp' with rfl | rfl
    · rfl
    · exfalso
      rw [desiredOccup, cex_pyMax] at hocc
      have : ¬ ((1 : ℚ) / 2 * 1 - eps ≤ cplanOcc ⟨1, Option.none, 1 / 10⟩) := by
        norm_num [eps, cplanOcc]
      exact this hocc
  have hpv : recordedPlanValues cplanInvalid cplanOcc cexPlans cexTarget
      (1 / 2) = [] := planScan_fst_nil _ _ _ _ _ hnone
  have := optimize_plan_no_records_error "diff" cplanInvalid cplanOcc cexPlans
    cexTarget false (1 / 2) hsurv hpv
  simpa using this

theorem w1_hex : ∃ p ∈ survivingPlans cplanInvalid w1Plans,
    desiredOccup cplanOcc (1 / 2) (survivingPlans cplanInvalid w1Plans)
      - eps ≤ cplanOcc p ∧
    benchCost (w1Target p) ≠ Option.none := by
  refine ⟨⟨0, Option.none, 1⟩, List.mem_cons_self _ _, ?_, by decide⟩
  have hmax : pyMax ((survivingPlans cplanInvalid w1Plans).map cplanOcc) = 1 :=
    rfl
  rw [desiredOccup, hmax]
  norm_num [eps, cplanOcc]

/-- Witness for C1 (amended) at the one-plan fixture. -/
theorem optimize_plan_returns_valid_benchmarked_witness :
    (∃ p ∈ survivingPlans cplanInvalid w1Plans,
      desiredOccup cplanOcc (1 / 2) (survivingPlans cplanInvalid w1Plans)
        - eps ≤ cplanOcc p ∧
      benchCost (w1Target p) ≠ Option.none) ∧
    ∃ (q : CPlan) (v : ℚ),
      optimize_plan "diff" cplanInvalid cplanOcc w1Plans w1Target false []
        (1 / 2) = .ok (q, v) ∧
      q ∈ w1Plans ∧ cplanInvalid q = Option.none ∧
      benchCost (w1Target q) = some v :=
  ⟨w1_hex, optimize_plan_returns_valid_benchmarked "diff" cplanInvalid
    cplanOcc w1Plans w1Target false (1 / 2) w1_hex⟩

/-- Witness for C3 at the spec's `{1, 9/10, 1/10}` fixture with slack
`0.5`. -/
theorem optimize_plan_occupancy_pruning_witness :
    (survivingPlans cplanInvalid w3Plans ≠ []) ∧
    ((∀ p : CPlan, cplanOcc p < desiredOccup cplanOcc (1 / 2)
        (survivingPlans cplanInvalid w3Plans) - eps →
      p ∉ benchmarkedPlans cplanInvalid cplanOcc w3Plans w3Target (1 / 2)) ∧
    (∀ p ∈ survivingPlans cplanInvalid w3Plans,
      desiredOccup cplanOcc (1 / 2) (survivingPlans cplanInvalid w3Plans)
        - eps ≤ cplanOcc p →
      p ∈ benchmarkedPlans cplanInvalid cplanOcc w3Plans w3Target (1 / 2))) :=
  ⟨by decide, optimize_plan_occupancy_pruning cplanInvalid cplanOcc w3Plans
    w3Target (1 / 2) (by decide)⟩

/-- Witness for C4 at a generator whose only plan is infeasible. -/
theorem optimize_plan_no_valid_plans_fatal_witness :
    (∀ p ∈ w4Plans, (cplanInvalid p).isSome) ∧
    optimize_plan "diff" cplanInvalid cplanOcc w4Plans
        (fun _ => BenchValue.scalar 5) true [] (1 / 2) =
      .error "no valid CUDA execution plans found" :=
  ⟨by decide, optimize_plan_no_valid_plans_fatal "diff" cplanInvalid cplanOcc
    w4Plans (fun _ => BenchValue.scalar 5) true [] (1 / 2) (by decide)⟩

theorem w5_hocc : desiredOccup cplanOcc (1 / 2)
    (survivingPlans cplanInvalid w5Plans) - eps ≤
    cplanOcc ⟨0, Option.none, 1⟩ := by
  have hmax : pyMax ((survivingPlans cplanInvalid w5Plans).map cplanOcc) = 1 := by
    show max 1 (max 1 1 : ℚ) = 1
    simp
  rw [desiredOccup, hmax]
  norm_num [eps, cplanOcc]

/-- Witness for C5 at the `{3, 7, 5}` fixture with `maximize = true`. -/
theorem optimize_plan_extremal_selection_witness :
    (survivingPlans cplanInvalid w5Plans ≠ []) ∧
    (recordedPlanValues cplanInvalid cplanOcc w5Plans w5Target (1 / 2) ≠ []) ∧
    ∃ (i : Nat) (p : CPlan) (v : ℚ),
      (recordedPlanValues cplanInvalid cplanOcc w5Plans w5Target
        (1 / 2)).get? i = some ((i, p), v) ∧
      optimize_plan "diff" cplanInvalid cplanOcc w5Plans w5Target true []
        (1 / 2) = .ok (p, v) ∧
      (∀ e ∈ recordedPlanValues cplanInvalid cplanOcc w5Plans w5Target (1 / 2),
        if true then e.2 ≤ v else v ≤ e.2) ∧
      (∀ (j : Nat) (e : (Nat × CPlan) × ℚ), j < i →
        (recordedPlanValues cplanInvalid cplanOcc w5Plans w5Target
          (1 / 2)).get? j = some e →
        if true then e.2 < v else v < e.2) := by
  have hpv : recordedPlanValues cplanInvalid cplanOcc w5Plans w5Target
      (1 / 2) ≠ [] :=
    planScan_fst_ne_nil _ _ _ _ 0 ⟨0, Option.none, 1⟩
      (List.mem_cons_self _ _) w5_hocc (by decide)
  exact ⟨by decide, hpv, optimize_plan_extremal_selection "diff" cplanInvalid
    cplanOcc w5Plans w5Target true (1 / 2) (by decide) hpv⟩

/-- Witness for C10: the benchmark declines everywhere and `optimize_plan`
raises from the empty extremal selection. -/
theorem optimize_plan_all_benchmarks_declined_fatal_witness :
    (survivingPlans cplanInvalid w10Plans ≠ []) ∧
    optimize_plan "diff" cplanInvalid cplanOcc w10Plans
        (fun _ => BenchValue.none) false [] (1 / 2) =
      .error (if false then "argmax of empty iterable"
        else "argmin of empty iterable") :=
  ⟨by decide, optimize_plan_all_benchmarks_declined_fatal "diff" cplanInvalid
    cplanOcc w10Plans (fun _ => BenchValue.none) false (1 / 2) (by decide)
    (fun p hp hocc => rfl)⟩

/-- Witness fixture for C6: alignment 16 floats, 10 DOFs per element. -/
theorem find_microblock_size_spec_witness :
    ((0 : Nat) < 16 ∧ (0 : Nat) < 10) ∧
    ((∀ mb, find_microblock_size 16 10 true = some mb →
      ∃ k, 1 ≤ k ∧ k ≤ 255 ∧
        mbOverheadOk 16 10 k = true ∧
        (∀ c, 1 ≤ c → c < k → mbOverheadOk 16 10 c = false) ∧
        mb.align_size = 16 ∧
        mb.aligned_floats = 16 * k ∧
        mb.elements = mb.aligned_floats / 10) ∧
    ((∀ c, 1 ≤ c → c ≤ 255 → mbOverheadOk 16 10 c = false) →
      find_microblock_size 16 10 true = Option.none) ∧
    (find_microblock_size 16 10 false =
      some { align_size := 16, elements := 1,
             aligned_floats := int_ceiling 10 16 }) ∧
    (16 ∣ int_ceiling 10 16 ∧ 10 ≤ int_ceiling 10 16 ∧
      ∀ m, 16 ∣ m → 10 ≤ m → int_ceiling 10 16 ≤ m)) :=
  ⟨⟨by decide, by decide⟩,
    find_microblock_size_spec 16 10 (by decide) (by decide)⟩

/-- Witness for C7 at the mixed vector/scalar fixture. -/
theorem compiledVE_partition_witness :
    (fixVes ≠ []) ∧
    ∀ d ∈ cveDeps fixVes,
      (d ∈ (mkCompiledVE fixVes fixIsVec).vector_exprs ↔
        fixIsVec d = true) ∧
      (d ∈ (mkCompiledVE fixVes fixIsVec).scalar_exprs ↔
        fixIsVec d = false) ∧
      ¬(d ∈ (mkCompiledVE fixVes fixIsVec).vector_exprs ∧
        d ∈ (mkCompiledVE fixVes fixIsVec).scalar_exprs) ∧
      (d ∈ (mkCompiledVE fixVes fixIsVec).vector_exprs ∨
        d ∈ (mkCompiledVE fixVes fixIsVec).scalar_exprs) :=
  ⟨by decide, compiledVE_partition fixVes fixIsVec (by decide)⟩

/-- Witness for C8 at the fixture. -/
theorem compiledVE_deterministic_witness :
    (mkCompiledVE fixVes fixIsVec).vector_exprs =
      (mkCompiledVE fixVes fixIsVec).vector_exprs ∧
    (mkCompiledVE fixVes fixIsVec).scalar_exprs =
      (mkCompiledVE fixVes fixIsVec).scalar_exprs ∧
    (mkCompiledVE fixVes fixIsVec).vector_names =
      (mkCompiledVE fixVes fixIsVec).vector_names ∧
    (mkCompiledVE fixVes fixIsVec).scalar_names =
      (mkCompiledVE fixVes fixIsVec).scalar_names ∧
    (mkCompiledVE fixVes fixIsVec).exprs =
      (mkCompiledVE fixVes fixIsVec).exprs ∧
    (mkCompiledVE fixVes fixIsVec).vector_names =
      (List.range (mkCompiledVE fixVes fixIsVec).vector_exprs.length).map
        (fun i => "v" ++ toString i) ∧
    (mkCompiledVE fixVes fixIsVec).scalar_names =
      (List.range (mkCompiledVE fixVes fixIsVec).scalar_exprs.length).map
        (fun i => "s" ++ toString i) :=
  compiledVE_deterministic fixVes fixIsVec _ _ rfl rfl

/-- Witness for C9 at the fixture: the first vector dependency `a` is
rewritten to `v0[i]` and the scalar dependency `c` to `s0`. -/
theorem compiledVE_rewrite_witness :
    ((mkCompiledVE fixVes fixIsVec).exprs = fixVes.map
      (substApply (substLookup (cveSubstMap fixVes fixIsVec)))) ∧
    substApply (substLookup (cveSubstMap fixVes fixIsVec)) (.var "a") =
      .subscript (.var "v0") (.var "i") ∧
    substApply (substLookup (cveSubstMap fixVes fixIsVec)) (.var "c") =
      .var "s0" :=
  ⟨(compiledVE_rewrite fixVes fixIsVec).1,
   (compiledVE_rewrite fixVes fixIsVec).2.1 0 (.var "a") (by decide),
   (compiledVE_rewrite fixVes fixIsVec).2.2.1 0 (.var "c") (by decide)⟩

/-- Witness for C2 at the fixture: the two rewritten targets share the one
common sub-expression `v0[i]*v1[i]`, whose binding key list is
duplicate-free and which is referenced by name once bound. -/
theorem getKernel_cse_once_witness :
    (((runCcodeAll (mkCompiledVE fixVes fixIsVec).exprs).2.cses.map
      Prod.fst).Nodup) ∧
    (∀ e ∈ (mkCompiledVE fixVes fixIsVec).exprs, ∀ c,
      occursCse c e = true →
      c ∈ (runCcodeAll (mkCompiledVE fixVes fixIsVec).exprs).2.cses.map
        Prod.fst) ∧
    (∀ c, c ∈ (runCcodeAll (mkCompiledVE fixVes fixIsVec).exprs).2.cses.map
        Prod.fst →
      ∃ i, (runCcodeAll
          (mkCompiledVE fixVes fixIsVec).exprs).2.cses.findIdx?
          (fun p => p.1 == c) = some i ∧
        ccode (.cse c) (runCcodeAll (mkCompiledVE fixVes fixIsVec).exprs).2 =
          (cseName i, (runCcodeAll (mkCompiledVE fixVes fixIsVec).exprs).2)) :=
  getKernel_cse_once fixVes fixIsVec

end HedgeSpec
